import Mathlib

/-!
Verification of `cli/mcp_parser.py`: a shallow embedding in Lean 4 of the
data model and operations of the extraction/accumulation tool, together with
theorems settling the specification claims.

Python values produced by `json.loads` are modelled by the inductive type
`Json`; Python `dict`s are modelled as insertion-ordered association lists
with unique keys, mutated by `dictAssign` (assignment `d[k] = v`) and read
by `dictGet` (`d.get(k)`).  Machine strings are `String`/`List Char`.
External collaborators (the HTTP client, BeautifulSoup) are modelled as
oracle inputs, as the specification treats them as interface-only.
-/

namespace McpParser

/-- A JSON value as produced by Python's `json.loads`.  Objects keep insertion
order and have unique keys.  Numeric literals are modelled as integers; no
claim involves floating point. -/
inductive Json where
  | null : Json
  | bool (b : Bool) : Json
  | num (n : Int) : Json
  | str (s : String) : Json
  | arr (elems : List Json) : Json
  | obj (entries : List (String × Json)) : Json

mutual

/-- Structural equality test on `Json` (Python `==` restricted to the
comparisons the program performs, which are between strings and `None`). -/
def Json.beq : Json → Json → Bool
  | .null, .null => true
  | .bool a, .bool b => a = b
  | .num a, .num b => a = b
  | .str a, .str b => a = b
  | .arr a, .arr b => Json.beqList a b
  | .obj a, .obj b => Json.beqEntries a b
  | _, _ => false

/-- Pointwise equality test on JSON arrays. -/
def Json.beqList : List Json → List Json → Bool
  | [], [] => true
  | a :: as, b :: bs => Json.beq a b && Json.beqList as bs
  | _, _ => false

/-- Pointwise equality test on JSON object entry lists. -/
def Json.beqEntries : List (String × Json) → List (String × Json) → Bool
  | [], [] => true
  | (k, v) :: as, (l, w) :: bs => k = l && Json.beq v w && Json.beqEntries as bs
  | _, _ => false

end

mutual

theorem Json.eq_of_beq : ∀ {a b : Json}, Json.beq a b = true → a = b
  | .null, .null, _ => rfl
  | .bool _, .bool _, h => by
      simp only [Json.beq, decide_eq_true_eq] at h; rw [h]
  | .num _, .num _, h => by
      simp only [Json.beq, decide_eq_true_eq] at h; rw [h]
  | .str _, .str _, h => by
      simp only [Json.beq, decide_eq_true_eq] at h; rw [h]
  | .arr a, .arr b, h => by rw [Json.eqList_of_beqList (a := a) (b := b) h]
  | .obj a, .obj b, h => by rw [Json.eqEntries_of_beqEntries (a := a) (b := b) h]
  | .null, .bool _, h => nomatch h
  | .null, .num _, h => nomatch h
  | .null, .str _, h => nomatch h
  | .null, .arr _, h => nomatch h
  | .null, .obj _, h => nomatch h
  | .bool _, .null, h => nomatch h
  | .bool _, .num _, h => nomatch h
  | .bool _, .str _, h => nomatch h
  | .bool _, .arr _, h => nomatch h
  | .bool _, .obj _, h => nomatch h
  | .num _, .null, h => nomatch h
  | .num _, .bool _, h => nomatch h
  | .num _, .str _, h => nomatch h
  | .num _, .arr _, h => nomatch h
  | .num _, .obj _, h => nomatch h
  | .str _, .null, h => nomatch h
  | .str _, .bool _, h => nomatch h
  | .str _, .num _, h => nomatch h
  | .str _, .arr _, h => nomatch h
  | .str _, .obj _, h => nomatch h
  | .arr _, .null, h => nomatch h
  | .arr _, .bool _, h => nomatch h
  | .arr _, .num _, h => nomatch h
  | .arr _, .str _, h => nomatch h
  | .arr _, .obj _, h => nomatch h
  | .obj _, .null, h => nomatch h
  | .obj _, .bool _, h => nomatch h
  | .obj _, .num _, h => nomatch h
  | .obj _, .str _, h => nomatch h
  | .obj _, .arr _, h => nomatch h

theorem Json.eqList_of_beqList : ∀ {a b : List Json}, Json.beqList a b = true → a = b
  | [], [], _ => rfl
  | x :: xs, y :: ys, h => by
      simp only [Json.beqList, Bool.and_eq_true] at h
      rw [Json.eq_of_beq h.1, Json.eqList_of_beqList (a := xs) (b := ys) h.2]
  | [], _ :: _, h => Bool.noConfusion h
  | _ :: _, [], h => Bool.noConfusion h

theorem Json.eqEntries_of_beqEntries :
    ∀ {a b : List (String × Json)}, Json.beqEntries a b = true → a = b
  | [], [], _ => rfl
  | (k, v) :: xs, (l, w) :: ys, h => by
      simp only [Json.beqEntries, Bool.and_eq_true, decide_eq_true_eq] at h
      rw [h.1.1, Json.eq_of_beq h.1.2,
        Json.eqEntries_of_beqEntries (a := xs) (b := ys) h.2]
  | [], _ :: _, h => nomatch h
  | _ :: _, [], h => nomatch h

end

mutual

theorem Json.beq_refl : ∀ a : Json, Json.beq a a = true
  | .null => rfl
  | .bool b => by simp [Json.beq]
  | .num n => by simp [Json.beq]
  | .str s => by simp [Json.beq]
  | .arr a => Json.beqList_refl a
  | .obj a => Json.beqEntries_refl a

theorem Json.beqList_refl : ∀ a : List Json, Json.beqList a a = true
  | [] => rfl
  | x :: xs => by
      simp only [Json.beqList, Bool.and_eq_true]
      exact ⟨Json.beq_refl x, Json.beqList_refl xs⟩

theorem Json.beqEntries_refl : ∀ a : List (String × Json), Json.beqEntries a a = true
  | [] => rfl
  | (k, v) :: xs => by
      have h1 := Json.beq_refl v
      have h2 := Json.beqEntries_refl xs
      simp [Json.beqEntries, h1, h2]

end

instance : DecidableEq Json := fun a b =>
  if h : Json.beq a b then isTrue (Json.eq_of_beq h)
  else isFalse (fun he => h (he ▸ Json.beq_refl a))

/-- Python `d.get(k)`: the value at the first (and, for well-formed dicts,
only) occurrence of the key, or `none`. -/
def dictGet : List (String × Json) → String → Option Json
  | [], _ => none
  | (k, v) :: rest, key => if k = key then some v else dictGet rest key

/-- Python `d[k] = v`: replace the value at an existing key in place, else
append the new pair at the end (insertion order). -/
def dictAssign : List (String × Json) → String → Json → List (String × Json)
  | [], key, val => [(key, val)]
  | (k, v) :: rest, key, val =>
      if k = key then (k, val) :: rest else (k, v) :: dictAssign rest key val

/-- Whitespace stripped by Python `str.strip()` (ASCII subset; the inputs in
this development are ASCII). -/
def isPyWs (c : Char) : Bool :=
  c = ' ' || c = '\t' || c = '\n' || c = '\r' || c = '\x0b' || c = '\x0c'

/-- Python `s.strip()` on a character list. -/
def pyStripList (cs : List Char) : List Char :=
  ((cs.dropWhile isPyWs).reverse.dropWhile isPyWs).reverse

/-- Python `s.strip()`. -/
def pyStrip (s : String) : String := ⟨pyStripList s.toList⟩

mutual

/-- Embeds `trim_data_recursively` (mcp_parser.py lines 47-62): recursively
strip whitespace from string keys and string values; dict entries are written
into a fresh dict by assignment, in iteration order. -/
def trim_data_recursively : Json → Json
  | Json.obj entries => Json.obj (trimObjEntries entries [])
  | Json.arr elems => Json.arr (trimList elems)
  | Json.str s => Json.str (pyStrip s)
  | Json.null => Json.null
  | Json.bool b => Json.bool b
  | Json.num n => Json.num n

/-- The loop `for k, v in data.items(): new_dict[k.strip()] = trim(v)`,
with `acc` the dict built so far. -/
def trimObjEntries : List (String × Json) → List (String × Json) → List (String × Json)
  | [], acc => acc
  | (k, v) :: rest, acc =>
      trimObjEntries rest (dictAssign acc (pyStrip k) (trim_data_recursively v))

/-- The list branch of `trim_data_recursively`. -/
def trimList : List Json → List Json
  | [] => []
  | j :: rest => trim_data_recursively j :: trimList rest

end

/-- Trimming a dict's entries, as applied by the cascade when it returns a
discovered mapping (`trim_data_recursively` restricted to objects). -/
def trimDict (entries : List (String × Json)) : List (String × Json) :=
  trimObjEntries entries []

/-! ### Strict JSON parsing (`json.loads`)

A recursive-descent parser for the strict JSON grammar, with fuel for
termination.  Restrictions of the model: numeric literals are integers
(no fraction/exponent forms) and `\u` escapes must denote scalar values;
no claim exercises either case. -/

/-- Whitespace accepted between JSON tokens by `json.loads`. -/
def isJsonWs (c : Char) : Bool :=
  c = ' ' || c = '\t' || c = '\n' || c = '\r'

/-- Skip inter-token whitespace. -/
def jsonSkipWs (cs : List Char) : List Char := cs.dropWhile isJsonWs

/-- Value of a hexadecimal digit, by code-point arithmetic: `0`-`9` are
code points 48-57, `a`-`f` are 97-102, `A`-`F` are 65-70. -/
def hexVal (c : Char) : Option Nat :=
  let n := c.toNat
  if 48 ≤ n ∧ n ≤ 57 then some (n - 48)
  else if 97 ≤ n ∧ n ≤ 102 then some (n - 87)
  else if 65 ≤ n ∧ n ≤ 70 then some (n - 55)
  else none

/-- String body parser: `cs` follows the opening quote; `acc` holds the
decoded characters in reverse.  Returns the decoded string and the text
after the closing quote. -/
def parseJStringAux : List Char → List Char → Option (String × List Char)
  | [], _ => none
  | '"' :: rest, acc => some (⟨acc.reverse⟩, rest)
  | '\\' :: '"' :: rest, acc => parseJStringAux rest ('"' :: acc)
  | '\\' :: '\\' :: rest, acc => parseJStringAux rest ('\\' :: acc)
  | '\\' :: '/' :: rest, acc => parseJStringAux rest ('/' :: acc)
  | '\\' :: 'b' :: rest, acc => parseJStringAux rest ('\x08' :: acc)
  | '\\' :: 'f' :: rest, acc => parseJStringAux rest ('\x0c' :: acc)
  | '\\' :: 'n' :: rest, acc => parseJStringAux rest ('\n' :: acc)
  | '\\' :: 'r' :: rest, acc => parseJStringAux rest ('\r' :: acc)
  | '\\' :: 't' :: rest, acc => parseJStringAux rest ('\t' :: acc)
  | '\\' :: 'u' :: h1 :: h2 :: h3 :: h4 :: rest, acc =>
      match hexVal h1, hexVal h2, hexVal h3, hexVal h4 with
      | some a, some b, some c, some d =>
          parseJStringAux rest (Char.ofNat (((a * 16 + b) * 16 + c) * 16 + d) :: acc)
      | _, _, _, _ => none
  | '\\' :: _, _ => none
  | c :: rest, acc => if c.toNat < 32 then none else parseJStringAux rest (c :: acc)

/-- Parse a JSON string literal whose opening quote has been consumed. -/
def parseJString (cs : List Char) : Option (String × List Char) :=
  parseJStringAux cs []

/-- Numeric value of a digit list. -/
def natOfDigits (ds : List Char) : Nat :=
  ds.foldl (fun n c => n * 10 + (c.toNat - '0'.toNat)) 0

/-- Parse a JSON integer literal (the model rejects fraction/exponent
forms; see the section comment). -/
def parseJNumber (cs : List Char) : Option (Json × List Char) :=
  let neg := match cs with | '-' :: _ => true | _ => false
  let cs1 := if neg then cs.drop 1 else cs
  let digits := cs1.takeWhile Char.isDigit
  let rest := cs1.dropWhile Char.isDigit
  if digits.isEmpty then none
  else if digits.length > 1 && digits.headD '0' = '0' then none
  else
    match rest with
    | '.' :: _ => none
    | 'e' :: _ => none
    | 'E' :: _ => none
    | _ =>
        let n : Int := natOfDigits digits
        some (Json.num (if neg then -n else n), rest)

mutual

/-- Parse one JSON value, skipping leading whitespace. -/
def parseJValue : Nat → List Char → Option (Json × List Char)
  | 0, _ => none
  | fuel + 1, cs =>
    match jsonSkipWs cs with
    | 'n' :: 'u' :: 'l' :: 'l' :: rest => some (Json.null, rest)
    | 't' :: 'r' :: 'u' :: 'e' :: rest => some (Json.bool true, rest)
    | 'f' :: 'a' :: 'l' :: 's' :: 'e' :: rest => some (Json.bool false, rest)
    | '"' :: rest =>
        match parseJString rest with
        | some (s, r) => some (Json.str s, r)
        | none => none
    | '[' :: rest =>
        (match jsonSkipWs rest with
         | ']' :: r2 => some (Json.arr [], r2)
         | _ => parseJArrayItems fuel rest [])
    | '\x7b' :: rest =>
        (match jsonSkipWs rest with
         | '\x7d' :: r2 => some (Json.obj [], r2)
         | _ => parseJObjItems fuel rest [])
    | other => parseJNumber other

/-- Parse the elements of a non-empty array; `acc` holds earlier elements
in reverse. -/
def parseJArrayItems : Nat → List Char → List Json → Option (Json × List Char)
  | 0, _, _ => none
  | fuel + 1, cs, acc =>
    match parseJValue fuel cs with
    | none => none
    | some (v, rest) =>
      match jsonSkipWs rest with
      | ',' :: r2 => parseJArrayItems fuel r2 (v :: acc)
      | ']' :: r2 => some (Json.arr (v :: acc).reverse, r2)
      | _ => none

/-- Parse the members of a non-empty object; the dict is built by
assignment so that a repeated key keeps its first position with the last
value, as in Python. -/
def parseJObjItems : Nat → List Char → List (String × Json) → Option (Json × List Char)
  | 0, _, _ => none
  | fuel + 1, cs, acc =>
    match jsonSkipWs cs with
    | '"' :: rest =>
      (match parseJString rest with
       | none => none
       | some (key, r1) =>
         match jsonSkipWs r1 with
         | ':' :: r2 =>
           (match parseJValue fuel r2 with
            | none => none
            | some (v, r3) =>
              match jsonSkipWs r3 with
              | ',' :: r4 => parseJObjItems fuel r4 (dictAssign acc key v)
              | '\x7d' :: r4 => some (Json.obj (dictAssign acc key v), r4)
              | _ => none)
         | _ => none)
    | _ => none

end

/-- Embeds `json.loads`: parse one value with surrounding whitespace and
require the whole input to be consumed, else fail. -/
def jsonLoads (s : String) : Option Json :=
  match parseJValue (2 * s.length + 2) s.toList with
  | some (v, rest) => if jsonSkipWs rest = [] then some v else none
  | none => none

/-! ### The comment-stripping stage of `_try_parse_json` (lines 25-30)

Each `re.sub` is compiled to a direct string transformation with the same
left-to-right, leftmost-match semantics. -/

/-- Within a single line, drop everything from the first `//` on
(the effect of `re.sub(r"//.*?$", "", s, flags=re.MULTILINE)` on a line). -/
def dropLineComment : List Char → List Char
  | [] => []
  | '/' :: '/' :: _ => []
  | c :: rest => c :: dropLineComment rest

/-- Split a character list on newline characters, keeping empty segments. -/
def splitOnNl : List Char → List (List Char)
  | [] => [[]]
  | '\n' :: rest => [] :: splitOnNl rest
  | c :: rest =>
      match splitOnNl rest with
      | [] => [[c]]
      | l :: ls => (c :: l) :: ls

/-- Embeds `re.sub(r"//.*?$", "", s, flags=re.MULTILINE)`. -/
def stripLineComments (cs : List Char) : List Char :=
  List.intercalate ['\n'] ((splitOnNl cs).map dropLineComment)

/-- Drop through the first `*/`, returning the text after it, or `none`
when no closing marker exists. -/
def dropThroughCloseBC : List Char → Option (List Char)
  | [] => none
  | '*' :: '/' :: rest => some rest
  | _ :: rest => dropThroughCloseBC rest

/-- Embeds `re.sub(r"/\*.*?\*/", "", s, flags=re.DOTALL)`: repeatedly remove
from each `/*` through the nearest following `*/`; a `/*` with no closing
marker matches nothing (and then nothing later can match either). -/
def stripBlockCommentsAux : Nat → List Char → List Char
  | 0, cs => cs
  | _ + 1, [] => []
  | fuel + 1, '/' :: '*' :: rest =>
      (match dropThroughCloseBC rest with
       | some rest2 => stripBlockCommentsAux fuel rest2
       | none => '/' :: '*' :: rest)
  | fuel + 1, c :: rest => c :: stripBlockCommentsAux fuel rest

/-- Embeds `re.sub(r"\.{3}", "", s)`: remove each run of three consecutive
dots, scanning left to right. -/
def stripEllipsis : List Char → List Char
  | '.' :: '.' :: '.' :: rest => stripEllipsis rest
  | c :: rest => c :: stripEllipsis rest
  | [] => []

/-- Embeds `re.sub(r",\s*(\}|\])", r"\1", s)`: drop a comma (and the
whitespace after it) that immediately precedes a closing brace or bracket;
scanning resumes after the kept bracket. -/
def stripTrailingCommasAux : Nat → List Char → List Char
  | 0, cs => cs
  | _ + 1, [] => []
  | fuel + 1, ',' :: rest =>
      (match rest.drop (rest.takeWhile isPyWs).length with
       | '\x7d' :: rest2 => '\x7d' :: stripTrailingCommasAux fuel rest2
       | ']' :: rest2 => ']' :: stripTrailingCommasAux fuel rest2
       | _ => ',' :: stripTrailingCommasAux fuel rest)
  | fuel + 1, c :: rest => c :: stripTrailingCommasAux fuel rest

/-- The full stripping pass of `_try_parse_json`'s second attempt
(lines 25-30): line comments, block comments, ellipses, trailing commas. -/
def stripJsonNoise (s : String) : String :=
  let cs1 := stripLineComments s.toList
  let cs2 := stripBlockCommentsAux (cs1.length + 1) cs1
  let cs3 := stripEllipsis cs2
  ⟨stripTrailingCommasAux (cs3.length + 1) cs3⟩

/-- Embeds `_try_parse_json` (lines 11-45).  The third stage depends on
whether the `json5` library is installed and on its behaviour; it is
modelled as an oracle parameter, consulted only after the first two
stages fail. -/
def tryParseJson (json5 : String → Option Json) (s : String) : Option Json :=
  match jsonLoads s with
  | some v => some v
  | none =>
    match jsonLoads (stripJsonNoise s) with
    | some v => some v
    | none => json5 s

/-! ### The balanced-delimiter scanner (`_find_balanced_structure`, lines 78-105) -/

/-- The scanning loop of `_find_balanced_structure` (lines 96-105): walk the
text keeping a depth counter, +1 on the opening character, -1 on the closing
character; when a decrement brings the counter to zero return the characters
walked so far (accumulated in reverse in `acc`), inclusive. -/
def balancedScanAux (o c : Char) : List Char → Int → List Char → Option (List Char)
  | [], _, _ => none
  | ch :: rest, counter, acc =>
    if ch = o then balancedScanAux o c rest (counter + 1) (ch :: acc)
    else if ch = c then
      if counter - 1 = 0 then some (ch :: acc).reverse
      else balancedScanAux o c rest (counter - 1) (ch :: acc)
    else balancedScanAux o c rest counter (ch :: acc)

/-- Embeds `_find_balanced_structure`.  The position search
`re.search(r"\s*" + re.escape(open_char), text[start:])` followed by
`.find(open_char, match.start())` locates the first occurrence of the
opening character at or after `start` (the `\s*` prefix of the pattern can
always match empty, so it does not constrain the search); the scan then
starts at that occurrence. -/
def find_balanced_structure (text : List Char) (start : Nat) (o c : Char) :
    Option (List Char) :=
  match (text.drop start).findIdx? (· = o) with
  | none => none
  | some j => balancedScanAux o c (text.drop (start + j)) 0 []

/-! ### The accumulator/deduplicator (`main`, lines 395-421) -/

/-- A Python dict with string keys, as stored in the persisted collection. -/
abbrev PDict := List (String × Json)

/-- Lines 403-405: copy the discovered body and assign the identity fields
(`item_to_add["id"] = key`, `item_to_add["source_url"] = url`). -/
def mkPersistedItem (key url : String) (body : PDict) : PDict :=
  dictAssign (dictAssign body "id" (Json.str key)) "source_url" (Json.str url)

/-- Lines 410-411: an existing entry counts as a duplicate of the candidate
when its `id` and `source_url` fields (via `.get`, `none` when absent) both
compare equal. -/
def isDuplicateOf (item existing : PDict) : Bool :=
  decide (dictGet existing "id" = dictGet item "id" ∧
          dictGet existing "source_url" = dictGet item "source_url")

/-- One iteration of the merge loop body of `main` (lines 398-421), acting
on the running (collection, appended-count) state: for a discovered
`(key, value)` pair whose value is a dict, build the candidate entry and
append it unless a duplicate exists; non-dict values are skipped by the
`isinstance(value, dict)` guard (line 400). -/
def mergeStep (url : String) (st : List PDict × Nat) (kv : String × Json) :
    List PDict × Nat :=
  match kv.2 with
  | Json.obj body =>
      let item := mkPersistedItem kv.1 url body
      if st.1.any (isDuplicateOf item) then st else (st.1 ++ [item], st.2 + 1)
  | _ => st

/-- Embeds the whole merge loop (lines 395-421), returning the updated
collection and the number of entries appended. -/
def mergeDiscovered (dset : List (String × Json)) (url : String)
    (collection : List PDict) : List PDict × Nat :=
  dset.foldl (mergeStep url) (collection, 0)

/-! ### The source-processing loop of `main` (lines 360-446)

The HTTP fetch and the extraction on the fetched page are deterministic
from the URL within one run; they are modelled together as an oracle
`String → Option DiscoveredSet`, where `none` covers a timeout, a request
failure, a non-2xx status, or an unexpected exception (all caught and
treated as "no data", lines 438-443). -/

/-- The mutable state of the loop: the persisted collection and the set of
processed URLs (kept as a list; membership is what the code consults). -/
structure RunState where
  collection : List PDict
  processed : List String
deriving DecidableEq

/-- Observable events of one URL iteration: either the URL was fetched, or
it was skipped because it was already processed (lines 373-375). -/
inductive RunEvent where
  | fetch (url : String)
  | skip (url : String)
deriving DecidableEq

/-- One iteration of the loop body for a single URL (lines 372-443):
skip without fetching if the URL is already processed; otherwise fetch and
extract, merge the result, and mark the URL processed exactly when the
merge appended at least one new entry (lines 423-425).  An empty extraction
performs no merge, which coincides with merging the empty set. -/
def runStep (fetchExtract : String → Option (List (String × Json)))
    (st : RunState) (url : String) : RunState × List RunEvent :=
  if url ∈ st.processed then (st, [RunEvent.skip url])
  else
    match fetchExtract url with
    | none => (st, [RunEvent.fetch url])
    | some d =>
        let r := mergeDiscovered d url st.collection
        (⟨r.1, if 0 < r.2 then st.processed ++ [url] else st.processed⟩,
          [RunEvent.fetch url])

/-- The loop over the whole URL list, returning the final state and the
event trace. -/
def runUrls (fetchExtract : String → Option (List (String × Json)))
    (st : RunState) : List String → RunState × List RunEvent
  | [] => (st, [])
  | u :: rest =>
      let r1 := runStep fetchExtract st u
      let r2 := runUrls fetchExtract r1.1 rest
      (r2.1, r1.2 ++ r2.2)

/-! ### The per-value heuristics of cascade steps 2 and 3 -/

/-- The test applied to one candidate server body: it has a `command` field
that is a string or a list, or an `args` field that is a list (lines 156
and 191). -/
def looksLikeServerBody (d : PDict) : Bool :=
  (match dictGet d "command" with
   | some (Json.str _) => true
   | some (Json.arr _) => true
   | _ => false) ||
  (match dictGet d "args" with
   | some (Json.arr _) => true
   | _ => false)

/-- The per-value test of the script-tag strategy's heuristic (b)
(line 156): the value is a dict that looks like a server body. -/
def scriptServerLike (v : Json) : Bool :=
  match v with
  | Json.obj d => looksLikeServerBody d
  | _ => false

/-- The per-value test of the fenced-block strategy's `all(...)` guard
(line 187): the value is a dict containing a `command` key. -/
def blockValueHasCommand (v : Json) : Bool :=
  match v with
  | Json.obj d => (dictGet d "command").isSome
  | _ => false

/-- Heuristic (b) of the script-tag strategy (line 156): every value of the
parsed mapping looks like a server definition. -/
def scriptHeuristicB (entries : PDict) : Bool :=
  entries.all (fun kv => scriptServerLike kv.2)

/-- Heuristic (b) of the fenced-block strategy (lines 187-193): every value
is a dict containing a `command` key, and the re-check loop then requires
every value to look like a server definition. -/
def blockHeuristicB (entries : PDict) : Bool :=
  entries.all (fun kv => blockValueHasCommand kv.2) &&
  entries.all (fun kv => scriptServerLike kv.2)

/-! ### The npx command-phrase strategy (lines 257-278)

The pattern `npx\s+-y\s+([@\w.-]+(?:/[@\w.-]+)?)\s+(?:mcp\s+)?([^\n\r<]+)`
is compiled to a direct greedy matcher.  The only regex backtracking the
pattern can exercise is shrinking a `\s+` when the argument fragment after
it would otherwise be empty; the matcher instead retries without the
optional `mcp` group, which agrees with the regex except on fragments
consisting of whitespace only (never produced by the pages modelled here,
and excluded by the hypotheses of the theorems below). -/

/-- ASCII `\w`. -/
def isWordChar (c : Char) : Bool := c.isAlphanum || c = '_'

/-- The character class `[@\w.-]` of the package identifier. -/
def isPkgChar (c : Char) : Bool := c = '@' || isWordChar c || c = '.' || c = '-'

/-- The character class `[^\n\r<]` of the trailing argument fragment. -/
def isFragChar (c : Char) : Bool := !(c = '\n' || c = '\r' || c = '<')

/-- A successful match: group 1 (package), group 2 (argument fragment), and
the text after the match, where scanning resumes. -/
structure NpxMatch where
  pkg : List Char
  arg : List Char
  rest : List Char
deriving DecidableEq

/-- Group 1 of the pattern, `[@\w.-]+(?:/[@\w.-]+)?`, matched greedily at
the head of `r2`: the package identifier and the remainder. -/
def pkgGroupAt (r2 : List Char) : Option (List Char × List Char) :=
  if (r2.takeWhile isPkgChar).isEmpty then none
  else
    match r2.drop (r2.takeWhile isPkgChar).length with
    | '/' :: r4 =>
        if (r4.takeWhile isPkgChar).isEmpty then
          some (r2.takeWhile isPkgChar, r2.drop (r2.takeWhile isPkgChar).length)
        else
          some (r2.takeWhile isPkgChar ++ '/' :: r4.takeWhile isPkgChar,
            r4.drop (r4.takeWhile isPkgChar).length)
    | r3 => some (r2.takeWhile isPkgChar, r3)

/-- The optional group `(?:mcp\s+)?` matched at the head of `r6`: the
remainder after a literal `mcp` followed by whitespace, or `none` when the
text does not begin with such a token. -/
def mcpOptionalAt (r6 : List Char) : Option (List Char) :=
  match r6 with
  | 'm' :: 'c' :: 'p' :: r7 =>
      if (r7.takeWhile isPyWs).isEmpty then none
      else some (r7.drop (r7.takeWhile isPyWs).length)
  | _ => none

/-- Group 2 of the pattern, `[^\n\r<]+`, matched greedily at the head of
`r`: a successful match carries the package already matched. -/
def fragGroupAt (pkg r : List Char) : Option NpxMatch :=
  if (r.takeWhile isFragChar).isEmpty then none
  else some ⟨pkg, r.takeWhile isFragChar, r.drop (r.takeWhile isFragChar).length⟩

/-- The tail of the pattern after the whitespace following group 1: try the
optional `mcp` token first (greedy); when the fragment after it is empty
the engine backtracks and matches group 2 without the optional token. -/
def npxTailAt (pkg r6 : List Char) : Option NpxMatch :=
  match mcpOptionalAt r6 with
  | some r7 =>
      (match fragGroupAt pkg r7 with
       | some m => some m
       | none => fragGroupAt pkg r6)
  | none => fragGroupAt pkg r6

/-- Try to match the npx pattern anchored at the head of `cs`. -/
def npxMatchAt (cs : List Char) : Option NpxMatch :=
  match cs with
  | 'n' :: 'p' :: 'x' :: r0 =>
    if (r0.takeWhile isPyWs).isEmpty then none else
    match r0.drop (r0.takeWhile isPyWs).length with
    | '-' :: 'y' :: r1 =>
      if (r1.takeWhile isPyWs).isEmpty then none else
      match pkgGroupAt (r1.drop (r1.takeWhile isPyWs).length) with
      | none => none
      | some (pkg, r5) =>
        if (r5.takeWhile isPyWs).isEmpty then none
        else npxTailAt pkg (r5.drop (r5.takeWhile isPyWs).length)
    | _ => none
  | _ => none

/-- `re.finditer` over the whole text: scan left to right, resuming after
each match. -/
def npxFindAllAux : Nat → List Char → List (List Char × List Char)
  | 0, _ => []
  | _ + 1, [] => []
  | fuel + 1, cs@(_ :: rest) =>
    match npxMatchAt cs with
    | some m => (m.pkg, m.arg) :: npxFindAllAux fuel m.rest
    | none => npxFindAllAux fuel rest

/-- The trailing punctuation class of line 272. -/
def isTrailPunct (c : Char) : Bool :=
  c = '.' || c = ',' || c = ';' || c = '!' || c = '?' ||
  c = '(' || c = ')' || c = '*' || c = '\'' || c = '"'

/-- Embeds `re.sub(r'[.,;!?()*\x27"]+$', '', s)`: remove the maximal
trailing run of punctuation characters. -/
def stripTrailingPunct (s : String) : String :=
  ⟨(s.toList.reverse.dropWhile isTrailPunct).reverse⟩

/-- Lines 266-278: build the synthesized record for one npx match.  The
key is the stripped package name (stripped again at line 278); the value is
the trimmed five-token invocation list with the fixed `"mcp"` token always
inserted, where the argument fragment is stripped, cleaned of trailing
punctuation and stripped again (lines 268, 272). -/
def npxRecord (pkg arg : List Char) : String × Json :=
  (pyStrip (pyStrip ⟨pkg⟩),
    trim_data_recursively (Json.arr
      [Json.str "npx", Json.str "-y", Json.str (pyStrip ⟨pkg⟩),
       Json.str "mcp", Json.str (pyStrip (stripTrailingPunct (pyStrip ⟨arg⟩)))]))

/-! ### Fenced ```json code blocks (lines 176-177)

The pattern ```` ```json\s*\n(.*?)\n\s*``` ```` with `re.DOTALL` is compiled
to a scanner: an opener is the literal ```` ```json ```` whose following
whitespace run contains a newline (the greedy `\s*\n` consumes through the
run's last newline); the block's content then runs to the earliest newline
followed by whitespace and three backticks. -/

/-- After ```` ```json ````: succeed iff the maximal whitespace run contains
a newline, returning the text after the last newline of the run. -/
def fenceOpen (cs : List Char) : Option (List Char) :=
  let w := cs.takeWhile isPyWs
  if '\n' ∈ w then
    some (cs.drop (w.length - (w.reverse.takeWhile (fun c => c ≠ '\n')).length))
  else none

/-- Find the earliest newline followed by whitespace and ```` ``` ````;
return the content before it and the text after the backticks. -/
def fenceCloseAux : Nat → List Char → List Char → Option (List Char × List Char)
  | 0, _, _ => none
  | _ + 1, [], _ => none
  | fuel + 1, '\n' :: rest, acc =>
      let after := rest.drop (rest.takeWhile isPyWs).length
      if ['`', '`', '`'].isPrefixOf after then some (acc.reverse, after.drop 3)
      else fenceCloseAux fuel rest ('\n' :: acc)
  | fuel + 1, c :: rest, acc => fenceCloseAux fuel rest (c :: acc)

/-- All fenced json blocks of the text, in order (the `re.finditer` loop of
line 177). -/
def findFencedBlocksAux : Nat → List Char → List (List Char)
  | 0, _ => []
  | _ + 1, [] => []
  | fuel + 1, cs@(_ :: rest) =>
    if ['`', '`', '`', 'j', 's', 'o', 'n'].isPrefixOf cs then
      match fenceOpen (cs.drop 7) with
      | some content0 =>
        (match fenceCloseAux (content0.length + 1) content0 [] with
         | some (content, after) => content :: findFencedBlocksAux fuel after
         | none => findFencedBlocksAux fuel rest)
      | none => findFencedBlocksAux fuel rest
    else findFencedBlocksAux fuel rest

/-- All fenced json blocks of a string. -/
def findFencedBlocks (s : String) : List (List Char) :=
  findFencedBlocksAux (s.toList.length + 1) s.toList

/-! ### The content-extraction cascade (`parse_page_content_for_data`,
lines 107-286)

The raw page is the response text plus derived views.  `ctJson` is the
test `'application/json' in content_type.lower()`.  BeautifulSoup is an
external collaborator: `scriptsOpt` is the list of non-empty string
contents of `<script type="application/json">` tags in document order
(`none` when markup parsing raises, line 165), and `htmlTextOpt` is
`soup.get_text(separator=" ")` (`none` when it raises, line 209). -/

structure RawPage where
  text : String
  ctJson : Bool
  scriptsOpt : Option (List String)
  htmlTextOpt : Option String
deriving DecidableEq

/-- Attempt 1 (lines 117-129): only for structured content types; parse the
whole body strictly and return the trimmed `mcpServers` mapping when present
and non-empty (the `if discovered_data` guard of line 124). -/
def attempt1 (p : RawPage) : Option PDict :=
  if p.ctJson then
    match jsonLoads p.text with
    | some (Json.obj entries) =>
      (match dictGet entries "mcpServers" with
       | some (Json.obj inner) =>
           if (trimDict inner).isEmpty then none else some (trimDict inner)
       | _ => none)
    | _ => none
  else none

/-- The two heuristics applied to one parsed script-tag value
(lines 148-159): (a) a `mcpServers` key with a dict value returns its
trimmed content unconditionally; (b) otherwise, if every value looks like a
server definition, the whole trimmed mapping is returned unconditionally. -/
def scriptHeuristics (parsed : Json) : Option PDict :=
  match parsed with
  | Json.obj entries =>
    (match dictGet entries "mcpServers" with
     | some (Json.obj inner) => some (trimDict inner)
     | _ => if scriptHeuristicB entries then some (trimDict entries) else none)
  | _ => none

/-- The loop over script tags (lines 138-164): first tag whose stripped
content parses strictly and fires a heuristic wins; empty contents and
parse failures are skipped. -/
def firstScriptHit : List String → Option PDict
  | [] => none
  | s :: rest =>
    if s = "" then firstScriptHit rest
    else
      match jsonLoads (pyStrip s) with
      | some parsed =>
        (match scriptHeuristics parsed with
         | some d => some d
         | none => firstScriptHit rest)
      | none => firstScriptHit rest

/-- Attempt 1.5 (lines 131-166): script-tag extraction; skipped entirely
when markup parsing raised. -/
def attempt15 (p : RawPage) : Option PDict :=
  match p.scriptsOpt with
  | none => none
  | some scripts => firstScriptHit scripts

/-- The two heuristics applied to one parsed fenced-block value
(lines 181-196): as in attempt 1.5, but heuristic (b) additionally requires
every value to contain a `command` key (line 187). -/
def blockHeuristics (parsed : Json) : Option PDict :=
  match parsed with
  | Json.obj entries =>
    (match dictGet entries "mcpServers" with
     | some (Json.obj inner) => some (trimDict inner)
     | _ => if blockHeuristicB entries then some (trimDict entries) else none)
  | _ => none

/-- The loop over fenced blocks (lines 177-199). -/
def firstBlockHit : List (List Char) → Option PDict
  | [] => none
  | b :: rest =>
    match jsonLoads (pyStrip ⟨b⟩) with
    | some parsed =>
      (match blockHeuristics parsed with
       | some d => some d
       | none => firstBlockHit rest)
    | none => firstBlockHit rest

/-- Attempt 2a (lines 174-202): fenced ```json block extraction on the raw
body text. -/
def attempt2a (p : RawPage) : Option PDict :=
  firstBlockHit (findFencedBlocks p.text)

/-- Lines 204-219: the plain text used by attempts 2b and 3 — the raw body
for structured content types, else the markup-stripped text (falling back
to the raw body when markup parsing raised or produced nothing). -/
def plainTextOf (p : RawPage) : String :=
  let pt := if p.ctJson then p.text
            else
              match p.htmlTextOpt with
              | some t => t
              | none => p.text
  if pt = "" && p.text ≠ "" then p.text else pt

/-- The literal key token searched for by attempt 2b (line 228). -/
def mcpKeyChars : List Char := "\"mcpServers\"".toList

/-- Python `text.find(pat, i)` relative to the suffix `cs = text[i:]`:
index of the first occurrence of `pat`, or `none`. -/
def findSubAux (pat : List Char) : Nat → List Char → Nat → Option Nat
  | 0, _, _ => none
  | fuel + 1, cs, i =>
    if pat.isPrefixOf cs then some i
    else
      match cs with
      | [] => none
      | _ :: rest => findSubAux pat fuel rest (i + 1)

/-- Python `text.find(pat, start)` as an absolute index. -/
def findSubFrom (pat text : List Char) (start : Nat) : Option Nat :=
  (findSubAux pat (text.length + 1) (text.drop start) 0).map (· + start)

/-- The occurrence loop of attempt 2b (lines 229-252): for each occurrence
of the key token, skip to the next colon (`re.search(r"\s*:", ...)` always
stops at the first colon), carve out a balanced brace structure, parse it
tolerantly, and return the trimmed mapping when non-empty; otherwise
continue searching after the key token. -/
def attempt2bAux (json5 : String → Option Json) (text : List Char) :
    Nat → Nat → Option PDict
  | 0, _ => none
  | fuel + 1, searchIdx =>
    match findSubFrom mcpKeyChars text searchIdx with
    | none => none
    | some occ =>
      match (text.drop (occ + mcpKeyChars.length)).findIdx? (· = ':') with
      | none => attempt2bAux json5 text fuel (occ + mcpKeyChars.length)
      | some ci =>
        match find_balanced_structure text (occ + mcpKeyChars.length + ci + 1)
            '\x7b' '\x7d' with
        | none => attempt2bAux json5 text fuel (occ + mcpKeyChars.length)
        | some objStr =>
          match tryParseJson json5 ⟨objStr⟩ with
          | some (Json.obj entries) =>
            if (trimDict entries).isEmpty then
              attempt2bAux json5 text fuel (occ + mcpKeyChars.length)
            else some (trimDict entries)
          | _ => attempt2bAux json5 text fuel (occ + mcpKeyChars.length)

/-- Attempt 2b (lines 227-255). -/
def attempt2b (json5 : String → Option Json) (p : RawPage) : Option PDict :=
  attempt2bAux json5 (plainTextOf p).toList ((plainTextOf p).toList.length + 1) 0

/-- Attempt 3 (lines 257-284): npx command phrases in the plain text; one
record per match, a repeated package name overwriting the earlier record
(dict assignment, line 278). -/
def attempt3 (p : RawPage) : Option PDict :=
  match npxFindAllAux ((plainTextOf p).toList.length + 1) (plainTextOf p).toList with
  | [] => none
  | ms =>
      some (ms.foldl
        (fun acc m => dictAssign acc (npxRecord m.1 m.2).1 (npxRecord m.1 m.2).2) [])

/-- Embeds `parse_page_content_for_data` (lines 107-286): the five
strategies in order, the first that fires determining the result; an empty
dict when none fires (line 286). -/
def parse_page_content_for_data (json5 : String → Option Json) (p : RawPage) :
    PDict :=
  match attempt1 p with
  | some d => d
  | none =>
    match attempt15 p with
    | some d => d
    | none =>
      match attempt2a p with
      | some d => d
      | none =>
        match attempt2b json5 p with
        | some d => d
        | none =>
          match attempt3 p with
          | some d => d
          | none => []

/-- The oracle for an environment where the `json5` library is absent
(`importlib.util.find_spec` returns `None`). -/
def noJson5 : String → Option Json := fun _ => none

/-! ## Supporting lemmas -/

theorem trimList_eq_map : ∀ l : List Json, trimList l = l.map trim_data_recursively
  | [] => rfl
  | j :: rest => by simp [trimList, trimList_eq_map rest]

theorem dictAssign_fresh : ∀ (acc : PDict) (k : String) (v : Json),
    (∀ kv ∈ acc, kv.1 ≠ k) → dictAssign acc k v = acc ++ [(k, v)]
  | [], _, _, _ => rfl
  | (k0, v0) :: rest, k, v, h => by
      have hne : k0 ≠ k := h (k0, v0) (List.mem_cons_self _ _)
      simp [dictAssign, hne,
        dictAssign_fresh rest k v (fun kv hkv => h kv (List.mem_cons_of_mem _ hkv))]

theorem trimObjEntries_eq : ∀ (entries acc : PDict),
    (entries.map fun kv => pyStrip kv.1).Nodup →
    (∀ kv ∈ acc, ∀ kv2 ∈ entries, kv.1 ≠ pyStrip kv2.1) →
    trimObjEntries entries acc =
      acc ++ entries.map (fun kv => (pyStrip kv.1, trim_data_recursively kv.2))
  | [], acc, _, _ => by simp [trimObjEntries]
  | (k, v) :: rest, acc, hnd, hfresh => by
      have hstep : dictAssign acc (pyStrip k) (trim_data_recursively v) =
          acc ++ [(pyStrip k, trim_data_recursively v)] :=
        dictAssign_fresh acc _ _
          (fun kv hkv => hfresh kv hkv (k, v) (List.mem_cons_self _ _))
      have hcons : (pyStrip k :: List.map (fun kv => pyStrip kv.1) rest).Nodup := by
        simpa using hnd
      have hnd2 : (rest.map fun kv => pyStrip kv.1).Nodup :=
        (List.nodup_cons.mp hcons).2
      have hhead : pyStrip k ∉ List.map (fun kv => pyStrip kv.1) rest :=
        (List.nodup_cons.mp hcons).1
      have hfresh2 : ∀ kv ∈ acc ++ [(pyStrip k, trim_data_recursively v)],
          ∀ kv2 ∈ rest, kv.1 ≠ pyStrip kv2.1 := by
        intro kv hkv kv2 hkv2
        rcases List.mem_append.mp hkv with hin | hin
        · exact hfresh kv hin kv2 (List.mem_cons_of_mem _ hkv2)
        · have hkeq : kv = (pyStrip k, trim_data_recursively v) := by simpa using hin
          subst hkeq
          show pyStrip k ≠ pyStrip kv2.1
          intro hcontra
          exact hhead (by
            rw [hcontra]
            exact List.mem_map.mpr ⟨kv2, hkv2, rfl⟩)
      simp only [trimObjEntries]
      rw [hstep, trimObjEntries_eq rest _ hnd2 hfresh2]
      simp

/-- Occurrence count of a character in a list. -/
def countCh (x : Char) : List Char → Nat
  | [] => 0
  | ch :: rest => (if ch = x then 1 else 0) + countCh x rest

/-- The depth counter of the scanning loop after consuming the first `k`
characters of the scanned region: opens minus closes. -/
def balanceAt (o c : Char) (l : List Char) (k : Nat) : Int :=
  (countCh o (l.take k) : Int) - (countCh c (l.take k) : Int)

theorem balanceAt_zero (o c : Char) (l : List Char) : balanceAt o c l 0 = 0 := by
  simp [balanceAt, countCh]

theorem balanceAt_succ_cons (o c ch : Char) (rest : List Char) (k : Nat) :
    balanceAt o c (ch :: rest) (k + 1) =
      ((if ch = o then (1 : Int) else 0) - (if ch = c then (1 : Int) else 0)) +
        balanceAt o c rest k := by
  simp only [balanceAt, List.take_succ_cons, countCh]
  by_cases h1 : ch = o <;> by_cases h2 : ch = c <;> simp [h1, h2] <;> ring

/-- If the running depth counter, started at `cnt`, never returns to zero at
a closing character anywhere in the region, the scanning loop reaches the
end of the text and fails. -/
theorem balancedScanAux_none (o c : Char) (hoc : o ≠ c) :
    ∀ (l : List Char) (cnt : Int) (acc : List Char),
      (∀ k, k < l.length → ¬ (l[k]? = some c ∧ cnt + balanceAt o c l (k + 1) = 0)) →
      balancedScanAux o c l cnt acc = none
  | [], _, _, _ => rfl
  | ch :: rest, cnt, acc, h => by
      by_cases hco : ch = o
      · have hcc : ¬ ch = c := by rw [hco]; exact hoc
        simp only [balancedScanAux, if_pos hco]
        apply balancedScanAux_none o c hoc rest (cnt + 1)
        intro k hk hcontra
        apply h (k + 1) (by simpa using Nat.succ_lt_succ hk)
        constructor
        · simpa using hcontra.1
        · rw [balanceAt_succ_cons, if_pos hco, if_neg hcc]
          have := hcontra.2
          omega
      · by_cases hcc : ch = c
        · simp only [balancedScanAux, if_neg hco, if_pos hcc]
          by_cases hz : cnt - 1 = 0
          · exfalso
            apply h 0 (by simp)
            constructor
            · simpa using hcc
            · rw [balanceAt_succ_cons, if_neg hco, if_pos hcc, balanceAt_zero]
              omega
          · simp only [if_neg hz]
            apply balancedScanAux_none o c hoc rest (cnt - 1)
            intro k hk hcontra
            apply h (k + 1) (by simpa using Nat.succ_lt_succ hk)
            constructor
            · simpa using hcontra.1
            · rw [balanceAt_succ_cons, if_neg hco, if_pos hcc]
              have := hcontra.2
              omega
        · simp only [balancedScanAux, if_neg hco, if_neg hcc]
          apply balancedScanAux_none o c hoc rest cnt
          intro k hk hcontra
          apply h (k + 1) (by simpa using Nat.succ_lt_succ hk)
          constructor
          · simpa using hcontra.1
          · rw [balanceAt_succ_cons, if_neg hco, if_neg hcc]
            have := hcontra.2
            omega

/-- When the first `k` elements all fail the predicate, the first match is
found beyond them, shifted by `k`. -/
theorem findIdx?_drop_of_take_false (p : Char → Bool) :
    ∀ (k : Nat) (l : List Char), (∀ x ∈ l.take k, p x = false) →
      l.findIdx? p = ((l.drop k).findIdx? p).map (· + k)
  | 0, l, _ => by
      cases hf : l.findIdx? p <;> simp [hf]
  | k + 1, [], _ => by simp
  | k + 1, x :: rest, h => by
      have hx : p x = false := h x (by simp)
      have ih := findIdx?_drop_of_take_false p k rest
        (fun y hy => h y (by simpa using List.mem_cons_of_mem x hy))
      simp only [List.findIdx?_cons, hx, if_false, List.findIdx?_start_succ,
        List.drop_succ_cons, ih, Option.map_map]
      rfl

/-! ## Claim C1

The accumulator is claimed to append one entry for every non-duplicate
`(name, body)` pair regardless of the shape of the body.  The code's guard
`isinstance(value, dict)` (line 400) silently skips any non-dict body — in
particular every record produced by the npx strategy, whose bodies are
lists (line 274), even though the surrounding comments (lines 335-336 and
399) state that npx command entries are among the data persisted.  This is
recorded as a code bug: the npx strategy's discoveries can never be
persisted. -/

/-- Claim C1: evaluating the merge at an npx-shaped discovery shows it
appends nothing, while a dict-shaped body of the same form appends one
entry. -/
theorem C1_merge_skips_nondict_bodies :
    mergeDiscovered
        [("@acme/tool", Json.arr [Json.str "npx", Json.str "-y",
            Json.str "@acme/tool", Json.str "mcp", Json.str "run"])]
        "https://example.com" [] = ([], 0) ∧
    (mergeDiscovered [("weather", Json.obj [("command", Json.str "python")])]
        "https://example.com" []).2 = 1 :=
  ⟨rfl, rfl⟩

/-! ## Claim C3

The claim asserts that the comment-stripping stage parses every strictly
valid text to the same value.  The stripping regexes also fire inside
string literals: an ellipsis inside a JSON string is deleted, changing the
parsed value.  What does hold is that `_try_parse_json` itself returns the
strict value whenever strict parsing succeeds, because the stripped stage
is only consulted after a strict failure. -/

/-- Counterexample to claim C3: the text `["..."]` is valid strict JSON,
but stripping deletes the ellipsis inside the string literal, so the
stripped stage parses it to a different value. -/
theorem C3_cex_strip_changes_value :
    jsonLoads "[\"...\"]" = some (Json.arr [Json.str "..."]) ∧
    jsonLoads (stripJsonNoise "[\"...\"]") = some (Json.arr [Json.str ""]) ∧
    Json.arr [Json.str "..."] ≠ Json.arr [Json.str ""] :=
  ⟨by decide, by decide, by decide⟩

/-- Claim C3 (amended): whenever the strict stage parses the input, the
tolerant parser returns that strict value — the stripped stage (and the
json5 stage) are consulted only after strict failure, so the tolerant
parser never changes the value of already-valid text. -/
theorem C3_tolerant_returns_strict_value (json5 : String → Option Json)
    (s : String) (v : Json) (h : jsonLoads s = some v) :
    tryParseJson json5 s = some v := by
  unfold tryParseJson
  rw [h]

/-- Witness for C3's amended theorem at a concrete input. -/
theorem C3_tolerant_returns_strict_value_witness :
    jsonLoads "[1]" = some (Json.arr [Json.num 1]) ∧
    tryParseJson noJson5 "[1]" = some (Json.arr [Json.num 1]) :=
  ⟨by decide,
    C3_tolerant_returns_strict_value noJson5 "[1]" (Json.arr [Json.num 1]) (by decide)⟩

/-! ## Claim C4

The fenced-block strategy's whole-block heuristic requires every value to
contain a `command` key (line 187) before running the same per-value check
as the script-tag strategy; the script-tag heuristic (line 156) accepts a
value with only an `args` list.  The two heuristics therefore accept
different mappings. -/

/-- Counterexample to claim C4: the mapping whose single value has an
`args` list but no `command` key is accepted by the script-tag heuristic
and rejected by the fenced-block heuristic. -/
theorem C4_cex_heuristics_differ :
    scriptHeuristicB [("fetch", Json.obj [("args", Json.arr [Json.str "x"])])] = true ∧
    blockHeuristicB [("fetch", Json.obj [("args", Json.arr [Json.str "x"])])] = false :=
  ⟨by decide, by decide⟩

/-- Claim C4 (amended): the fenced-block heuristic accepts precisely the
mappings accepted by the script-tag heuristic in which, additionally, every
value is a dict containing a `command` key. -/
theorem C4_block_heuristic_refines_script (entries : PDict) :
    blockHeuristicB entries = true ↔
      (scriptHeuristicB entries = true ∧
        ∀ kv ∈ entries, blockValueHasCommand kv.2 = true) := by
  simp only [blockHeuristicB, scriptHeuristicB, Bool.and_eq_true, List.all_eq_true]
  exact and_comm

/-- Witness for C4's amended theorem at a concrete mapping. -/
theorem C4_block_heuristic_refines_script_witness :
    blockHeuristicB [("s", Json.obj [("command", Json.str "run")])] = true ↔
      (scriptHeuristicB [("s", Json.obj [("command", Json.str "run")])] = true ∧
        ∀ kv ∈ [(("s" : String), Json.obj [("command", Json.str "run")])],
          blockValueHasCommand kv.2 = true) :=
  C4_block_heuristic_refines_script [("s", Json.obj [("command", Json.str "run")])]

/-! ## Claim C5

The trimmer is claimed to preserve structure exactly, in particular the
number of mapping entries.  Two keys that differ only in surrounding
whitespace collide after trimming: the Python dict assignment overwrites,
and the mapping shrinks.  The structure is preserved exactly whenever the
trimmed keys are pairwise distinct. -/

/-- Counterexample to claim C5: a two-entry mapping whose keys trim to the
same string becomes a one-entry mapping (keeping the later value at the
earlier position). -/
theorem C5_cex_key_collision :
    trim_data_recursively (Json.obj [(" a", Json.num 1), ("a", Json.num 2)]) =
      Json.obj [("a", Json.num 2)] ∧
    ([(" a", Json.num 1), ("a", Json.num 2)] : PDict).length ≠
      ([("a", Json.num 2)] : PDict).length :=
  ⟨by decide, by decide⟩

/-- Claim C5 (amended): trimming strips every string (key or scalar) and
preserves structure — scalars pass through unchanged, sequences keep their
length and order, and a mapping keeps its entries in order provided the
trimmed keys are pairwise distinct (a whitespace-only key collision shrinks
the mapping, as the counterexample shows). -/
theorem C5_trim_structure :
    (∀ s, trim_data_recursively (Json.str s) = Json.str (pyStrip s)) ∧
    (∀ b, trim_data_recursively (Json.bool b) = Json.bool b) ∧
    (∀ n, trim_data_recursively (Json.num n) = Json.num n) ∧
    (trim_data_recursively Json.null = Json.null) ∧
    (∀ l, trim_data_recursively (Json.arr l) =
      Json.arr (l.map trim_data_recursively)) ∧
    (∀ entries : PDict,
      (entries.map fun kv => pyStrip kv.1).Nodup →
      trim_data_recursively (Json.obj entries) =
        Json.obj (entries.map fun kv => (pyStrip kv.1, trim_data_recursively kv.2))) := by
  refine ⟨fun s => rfl, fun b => rfl, fun n => rfl, rfl, fun l => ?_, fun entries hnd => ?_⟩
  · simp [trim_data_recursively, trimList_eq_map]
  · simp only [trim_data_recursively]
    rw [trimObjEntries_eq entries [] hnd (by intro kv hkv; simp at hkv)]
    simp

/-- Witness for C5's amended theorem: the mapping conjunct applied at a
concrete mapping with distinct trimmed keys. -/
theorem C5_trim_structure_witness :
    ((([(" a", Json.str " x "), ("b ", Json.num 3)] : PDict).map
        fun kv => pyStrip kv.1).Nodup) ∧
    trim_data_recursively (Json.obj [(" a", Json.str " x "), ("b ", Json.num 3)]) =
      Json.obj [("a", Json.str "x"), ("b", Json.num 3)] := by
  constructor
  · decide
  · have h := C5_trim_structure.2.2.2.2.2
      [(" a", Json.str " x "), ("b ", Json.num 3)] (by decide)
    rw [h]
    decide

/-! ## Claim C7

The balanced scanner on the specified concrete text, and the two failure
conditions: no opening delimiter at or after the start index, and a region
whose depth counter never returns to zero at a closing character (the
declarative reading of "end of text reached with depth still nonzero"). -/

/-- Claim C7: the scanner returns exactly the balanced substring on the
spec's example, returns the not-found signal when no opening delimiter
occurs at or after the start index, and returns the not-found signal when
the depth counter never returns to zero over the scanned region. -/
theorem C7_balanced_scanner :
    (find_balanced_structure "prefix \x7b a \x7b b \x7d c \x7d suffix".toList 6
        '\x7b' '\x7d' = some "\x7b a \x7b b \x7d c \x7d".toList) ∧
    (∀ (text : List Char) (start : Nat) (o c : Char),
        (∀ ch ∈ text.drop start, ch ≠ o) →
        find_balanced_structure text start o c = none) ∧
    (∀ (text : List Char) (start : Nat) (o c : Char) (j : Nat),
        o ≠ c →
        (text.drop start).findIdx? (· = o) = some j →
        (∀ k, k < (text.drop (start + j)).length →
          ¬ ((text.drop (start + j))[k]? = some c ∧
             balanceAt o c (text.drop (start + j)) (k + 1) = 0)) →
        find_balanced_structure text start o c = none) := by
  refine ⟨by decide, ?_, ?_⟩
  · intro text start o c hno
    unfold find_balanced_structure
    have hidx : (text.drop start).findIdx? (· = o) = none :=
      List.findIdx?_eq_none_iff.mpr (fun x hx => by simp [hno x hx])
    rw [hidx]
  · intro text start o c j hoc hj h
    unfold find_balanced_structure
    rw [hj]
    exact balancedScanAux_none o c hoc _ 0 []
      (fun k hk hcontra => h k hk ⟨hcontra.1, by simpa using hcontra.2⟩)

/-- Witness for C7: the unbalanced-region conjunct applied to the text
`"x { a"`, whose region from the first opening brace never closes. -/
theorem C7_balanced_scanner_witness :
    ('\x7b' : Char) ≠ '\x7d' ∧
    ("x \x7b a".toList.drop 0).findIdx? (· = '\x7b') = some 2 ∧
    (∀ k, k < ("x \x7b a".toList.drop (0 + 2)).length →
      ¬ (("x \x7b a".toList.drop (0 + 2))[k]? = some '\x7d' ∧
         balanceAt '\x7b' '\x7d' ("x \x7b a".toList.drop (0 + 2)) (k + 1) = 0)) ∧
    find_balanced_structure "x \x7b a".toList 0 '\x7b' '\x7d' = none :=
  ⟨by decide, by decide, by decide,
    C7_balanced_scanner.2.2 "x \x7b a".toList 0 '\x7b' '\x7d' 2
      (by decide) (by decide) (by decide)⟩

/-! ## Claim C9

The scanner's position search locates the first occurrence of the opening
delimiter anywhere at or after the start index: characters before it —
whitespace or not — only shift the effective start, and depth counting
begins at that occurrence.  The second conjunct shows a non-whitespace
prefix being skipped on a concrete input. -/

/-- Claim C9: skipping any block of non-delimiter characters after the
start index does not change the result, and the scanner accepts an opening
delimiter preceded by non-whitespace text. -/
theorem C9_scanner_skips_nondelimiters :
    (∀ (text : List Char) (start k : Nat) (o c : Char),
        (∀ ch ∈ (text.drop start).take k, ch ≠ o) →
        find_balanced_structure text start o c =
          find_balanced_structure text (start + k) o c) ∧
    (find_balanced_structure "ab!@\x7bc\x7d".toList 0 '\x7b' '\x7d' =
      some "\x7bc\x7d".toList) := by
  constructor
  · intro text start k o c h
    unfold find_balanced_structure
    have hshift := findIdx?_drop_of_take_false (· = o) k (text.drop start)
      (fun x hx => by simp [h x hx])
    rw [hshift, List.drop_drop]
    cases hf : (text.drop (start + k)).findIdx? (· = o) with
    | none => rfl
    | some j =>
        have harith : start + (j + k) = start + k + j := by omega
        simp [harith]
  · decide

/-- Witness for C9: the skip-insensitivity conjunct applied at a concrete
text whose two leading characters are not the opening delimiter. -/
theorem C9_scanner_skips_nondelimiters_witness :
    (∀ ch ∈ ("xy\x7ba\x7d".toList.drop 0).take 2, ch ≠ '\x7b') ∧
    find_balanced_structure "xy\x7ba\x7d".toList 0 '\x7b' '\x7d' =
      find_balanced_structure "xy\x7ba\x7d".toList (0 + 2) '\x7b' '\x7d' :=
  ⟨by decide,
    C9_scanner_skips_nondelimiters.1 "xy\x7ba\x7d".toList 0 2 '\x7b' '\x7d' (by decide)⟩

/-! ## Claim C6

Deduplication of the accumulator: merging the same discovered set for the
same URL twice appends nothing the second time; a record name already
present under one URL still appends under a different URL. -/

/-- The collection contains an entry whose `id` and `source_url` fields are
the given strings. -/
def hasPersistedPair (C : List PDict) (k u : String) : Prop :=
  ∃ e ∈ C, dictGet e "id" = some (Json.str k) ∧
    dictGet e "source_url" = some (Json.str u)

instance (C : List PDict) (k u : String) : Decidable (hasPersistedPair C k u) := by
  unfold hasPersistedPair
  infer_instance

theorem dictGet_assign_self : ∀ (d : PDict) (k : String) (v : Json),
    dictGet (dictAssign d k v) k = some v
  | [], k, v => by simp [dictAssign, dictGet]
  | (k0, v0) :: rest, k, v => by
      by_cases h : k0 = k
      · simp [dictAssign, h, dictGet]
      · simp [dictAssign, h, dictGet, dictGet_assign_self rest k v]

theorem dictGet_assign_ne : ∀ (d : PDict) (k k2 : String) (v : Json), k ≠ k2 →
    dictGet (dictAssign d k v) k2 = dictGet d k2
  | [], k, k2, v, h => by simp [dictAssign, dictGet, h]
  | (k0, v0) :: rest, k, k2, v, h => by
      by_cases h0 : k0 = k
      · subst h0
        simp [dictAssign, dictGet, h]
      · by_cases h2 : k0 = k2
        · subst h2
          simp [dictAssign, dictGet, h0, Ne.symm h]
        · simp [dictAssign, h0, dictGet, h2, dictGet_assign_ne rest k k2 v h]

theorem mkPersistedItem_id (k u : String) (body : PDict) :
    dictGet (mkPersistedItem k u body) "id" = some (Json.str k) := by
  unfold mkPersistedItem
  rw [dictGet_assign_ne _ _ _ _ (by decide)]
  exact dictGet_assign_self _ _ _

theorem mkPersistedItem_source (k u : String) (body : PDict) :
    dictGet (mkPersistedItem k u body) "source_url" = some (Json.str u) :=
  dictGet_assign_self _ _ _

theorem any_isDuplicateOf_iff (C : List PDict) (item : PDict) :
    C.any (isDuplicateOf item) = true ↔
      ∃ e ∈ C, dictGet e "id" = dictGet item "id" ∧
        dictGet e "source_url" = dictGet item "source_url" := by
  rw [List.any_eq_true]
  constructor
  · rintro ⟨e, he, hp⟩
    exact ⟨e, he, by simpa [isDuplicateOf] using hp⟩
  · rintro ⟨e, he, hp⟩
    exact ⟨e, he, by simpa [isDuplicateOf] using hp⟩

/-- The merge step on a non-dict body leaves the state unchanged. -/
theorem mergeStep_nonObj (url : String) (st : List PDict × Nat)
    (k : String) (v : Json) (hv : ∀ body, v ≠ Json.obj body) :
    mergeStep url st (k, v) = st := by
  cases v with
  | obj body => exact absurd rfl (hv body)
  | null => rfl
  | bool b => rfl
  | num m => rfl
  | str s => rfl
  | arr l => rfl

/-- The merge step on a dict body, spelled out. -/
theorem mergeStep_obj (url : String) (st : List PDict × Nat)
    (k : String) (body : PDict) :
    mergeStep url st (k, Json.obj body) =
      if st.1.any (isDuplicateOf (mkPersistedItem k url body)) then st
      else (st.1 ++ [mkPersistedItem k url body], st.2 + 1) := rfl

/-- Folding the merge step from a shifted count only shifts the count. -/
theorem mergeFold_shift (url : String) :
    ∀ (dset : List (String × Json)) (C : List PDict) (n : Nat),
      dset.foldl (mergeStep url) (C, n) =
        ((mergeDiscovered dset url C).1, n + (mergeDiscovered dset url C).2)
  | [], C, n => by simp [mergeDiscovered]
  | (k, v) :: rest, C, n => by
      simp only [mergeDiscovered, List.foldl_cons]
      cases v with
      | obj body =>
          rw [mergeStep_obj, mergeStep_obj]
          by_cases hdup : C.any (isDuplicateOf (mkPersistedItem k url body)) = true
          · rw [if_pos hdup, if_pos hdup,
              mergeFold_shift url rest C n, mergeFold_shift url rest C 0]
            simp [mergeDiscovered]
          · rw [if_neg hdup, if_neg hdup,
              mergeFold_shift url rest (C ++ [mkPersistedItem k url body]) (n + 1),
              mergeFold_shift url rest (C ++ [mkPersistedItem k url body]) (0 + 1)]
            simp only [mergeDiscovered]
            refine Prod.ext rfl ?_
            simp only []
            omega
      | null =>
          rw [mergeStep_nonObj url _ _ _ (fun b => Json.noConfusion),
            mergeStep_nonObj url _ _ _ (fun b => Json.noConfusion),
            mergeFold_shift url rest C n, mergeFold_shift url rest C 0]
          simp [mergeDiscovered]
      | bool b =>
          rw [mergeStep_nonObj url _ _ _ (fun b hb => Json.noConfusion hb),
            mergeStep_nonObj url _ _ _ (fun b hb => Json.noConfusion hb),
            mergeFold_shift url rest C n, mergeFold_shift url rest C 0]
          simp [mergeDiscovered]
      | num m =>
          rw [mergeStep_nonObj url _ _ _ (fun b hb => Json.noConfusion hb),
            mergeStep_nonObj url _ _ _ (fun b hb => Json.noConfusion hb),
            mergeFold_shift url rest C n, mergeFold_shift url rest C 0]
          simp [mergeDiscovered]
      | str s =>
          rw [mergeStep_nonObj url _ _ _ (fun b hb => Json.noConfusion hb),
            mergeStep_nonObj url _ _ _ (fun b hb => Json.noConfusion hb),
            mergeFold_shift url rest C n, mergeFold_shift url rest C 0]
          simp [mergeDiscovered]
      | arr l =>
          rw [mergeStep_nonObj url _ _ _ (fun b hb => Json.noConfusion hb),
            mergeStep_nonObj url _ _ _ (fun b hb => Json.noConfusion hb),
            mergeFold_shift url rest C n, mergeFold_shift url rest C 0]
          simp [mergeDiscovered]

/-- The merge never removes entries from the collection. -/
theorem mergeDiscovered_mem_mono (url : String) :
    ∀ (dset : List (String × Json)) (C : List PDict) (e : PDict),
      e ∈ C → e ∈ (mergeDiscovered dset url C).1
  | [], C, e, he => he
  | (k, v) :: rest, C, e, he => by
      simp only [mergeDiscovered, List.foldl_cons]
      cases v with
      | obj body =>
          rw [mergeStep_obj]
          by_cases hdup : C.any (isDuplicateOf (mkPersistedItem k url body)) = true
          · rw [if_pos hdup]
            exact mergeDiscovered_mem_mono url rest C e he
          · rw [if_neg hdup, mergeFold_shift]
            exact mergeDiscovered_mem_mono url rest _ e (List.mem_append_left _ he)
      | null => exact mergeDiscovered_mem_mono url rest C e he
      | bool b => exact mergeDiscovered_mem_mono url rest C e he
      | num m => exact mergeDiscovered_mem_mono url rest C e he
      | str s => exact mergeDiscovered_mem_mono url rest C e he
      | arr l => exact mergeDiscovered_mem_mono url rest C e he

/-- After a merge, every discovered dict-bodied record name is present in
the collection under the merged URL. -/
theorem mergeDiscovered_covers (url : String) :
    ∀ (dset : List (String × Json)) (C : List PDict) (k : String) (body : PDict),
      (k, Json.obj body) ∈ dset →
      hasPersistedPair (mergeDiscovered dset url C).1 k url
  | [], _, _, _, hmem => absurd hmem (List.not_mem_nil _)
  | (k0, v0) :: rest, C, k, body, hmem => by
      rcases List.mem_cons.mp hmem with heq | htail
      · have hk : k0 = k := (Prod.mk.injEq .. ▸ heq.symm).1
        have hv : v0 = Json.obj body := (Prod.mk.injEq .. ▸ heq.symm).2
        subst hk
        subst hv
        simp only [mergeDiscovered, List.foldl_cons]
        rw [mergeStep_obj]
        by_cases hdup : C.any (isDuplicateOf (mkPersistedItem k0 url body)) = true
        · rw [if_pos hdup]
          obtain ⟨e, he, hid, hsrc⟩ := (any_isDuplicateOf_iff C _).mp hdup
          rw [mkPersistedItem_id] at hid
          rw [mkPersistedItem_source] at hsrc
          exact ⟨e, mergeDiscovered_mem_mono url rest C e he, hid, hsrc⟩
        · rw [if_neg hdup, mergeFold_shift]
          refine ⟨mkPersistedItem k0 url body,
            mergeDiscovered_mem_mono url rest _ _
              (List.mem_append_right _ (List.mem_singleton_self _)),
            mkPersistedItem_id .., mkPersistedItem_source ..⟩
      · simp only [mergeDiscovered, List.foldl_cons]
        cases v0 with
        | obj body0 =>
            rw [mergeStep_obj]
            by_cases hdup : C.any (isDuplicateOf (mkPersistedItem k0 url body0)) = true
            · rw [if_pos hdup]
              exact mergeDiscovered_covers url rest C k body htail
            · rw [if_neg hdup, mergeFold_shift]
              exact mergeDiscovered_covers url rest _ k body htail
        | null => exact mergeDiscovered_covers url rest C k body htail
        | bool b => exact mergeDiscovered_covers url rest C k body htail
        | num m => exact mergeDiscovered_covers url rest C k body htail
        | str s => exact mergeDiscovered_covers url rest C k body htail
        | arr l => exact mergeDiscovered_covers url rest C k body htail

/-- When every discovered dict-bodied record name is already present under
the merged URL, the merge is a no-op. -/
theorem mergeDiscovered_noop (url : String) :
    ∀ (dset : List (String × Json)) (C : List PDict),
      (∀ k body, (k, Json.obj body) ∈ dset → hasPersistedPair C k url) →
      mergeDiscovered dset url C = (C, 0)
  | [], C, _ => rfl
  | (k0, v0) :: rest, C, h => by
      simp only [mergeDiscovered, List.foldl_cons]
      have htl : ∀ k body, (k, Json.obj body) ∈ rest → hasPersistedPair C k url :=
        fun k body hmem => h k body (List.mem_cons_of_mem _ hmem)
      cases v0 with
      | obj body0 =>
          obtain ⟨e, he, hid, hsrc⟩ := h k0 body0 (List.mem_cons_self _ _)
          have hdup : C.any (isDuplicateOf (mkPersistedItem k0 url body0)) = true := by
            refine (any_isDuplicateOf_iff C _).mpr ⟨e, he, ?_, ?_⟩
            · rw [mkPersistedItem_id]; exact hid
            · rw [mkPersistedItem_source]; exact hsrc
          rw [mergeStep_obj, if_pos hdup]
          exact mergeDiscovered_noop url rest C htl
      | null => exact mergeDiscovered_noop url rest C htl
      | bool b => exact mergeDiscovered_noop url rest C htl
      | num m => exact mergeDiscovered_noop url rest C htl
      | str s => exact mergeDiscovered_noop url rest C htl
      | arr l => exact mergeDiscovered_noop url rest C htl

/-- Claim C6: re-merging the same discovered set for the same URL appends
zero entries and leaves the collection unchanged; and a record name present
under URL `u`, merged as a dict body under a different URL `u'` not yet
paired with it, appends exactly one entry. -/
theorem C6_merge_dedup (D : List (String × Json)) (u u' : String)
    (C : List PDict) (name : String) (body : PDict) :
    (mergeDiscovered D u (mergeDiscovered D u C).1 =
      ((mergeDiscovered D u C).1, 0)) ∧
    (hasPersistedPair C name u → u' ≠ u → ¬ hasPersistedPair C name u' →
      mergeDiscovered [(name, Json.obj body)] u' C =
        (C ++ [mkPersistedItem name u' body], 1)) := by
  constructor
  · exact mergeDiscovered_noop u D (mergeDiscovered D u C).1
      (fun k body hmem => mergeDiscovered_covers u D C k body hmem)
  · intro _ _ hnew
    have hdup : C.any (isDuplicateOf (mkPersistedItem name u' body)) = false := by
      rw [Bool.eq_false_iff]
      intro hcontra
      obtain ⟨e, he, hid, hsrc⟩ := (any_isDuplicateOf_iff C _).mp hcontra
      rw [mkPersistedItem_id] at hid
      rw [mkPersistedItem_source] at hsrc
      exact hnew ⟨e, he, hid, hsrc⟩
    simp [mergeDiscovered, mergeStep, hdup]

/-! ## Supporting lemmas about scanning and stripping -/

theorem takeWhile_all (p : Char → Bool) :
    ∀ l : List Char, (∀ c ∈ l, p c = true) → l.takeWhile p = l
  | [], _ => rfl
  | a :: l, h => by
      rw [List.takeWhile_cons, if_pos (h a (by simp)),
        takeWhile_all p l (fun c hc => h c (List.mem_cons_of_mem _ hc))]

theorem takeWhile_append_all (p : Char → Bool) :
    ∀ (A : List Char) (b : Char) (rest : List Char),
      (∀ c ∈ A, p c = true) → p b = false →
      (A ++ b :: rest).takeWhile p = A
  | [], b, rest, _, hb => by simp [List.takeWhile_cons, hb]
  | a :: A, b, rest, hA, hb => by
      rw [List.cons_append, List.takeWhile_cons, if_pos (hA a (by simp)),
        takeWhile_append_all p A b rest (fun c hc => hA c (List.mem_cons_of_mem _ hc)) hb]

theorem takeWhile_nil_of_head_false (p : Char → Bool) (c : Char) (rest : List Char)
    (hc : p c = false) : (c :: rest).takeWhile p = [] := by
  simp [List.takeWhile_cons, hc]

theorem dropWhile_all_false (p : Char → Bool) :
    ∀ l : List Char, (∀ c ∈ l, p c = false) → l.dropWhile p = l
  | [], _ => rfl
  | a :: l, h => by
      rw [List.dropWhile_cons, if_neg (by simp [h a (by simp)])]

theorem dropWhile_idem (p : Char → Bool) :
    ∀ l : List Char, (l.dropWhile p).dropWhile p = l.dropWhile p
  | [] => rfl
  | a :: l => by
      by_cases ha : p a
      · rw [List.dropWhile_cons, if_pos ha]
        exact dropWhile_idem p l
      · rw [List.dropWhile_cons, if_neg ha, List.dropWhile_cons, if_neg ha]

theorem dropWhile_head_false (p : Char → Bool) :
    ∀ (l : List Char) (c : Char) (rest : List Char),
      l.dropWhile p = c :: rest → p c = false
  | [], _, _, h => by simp at h
  | a :: l, c, rest, h => by
      by_cases ha : p a
      · rw [List.dropWhile_cons, if_pos ha] at h
        exact dropWhile_head_false p l c rest h
      · rw [List.dropWhile_cons, if_neg ha] at h
        injection h with h1 _
        rw [← h1]
        exact Bool.not_eq_true _ ▸ (by simpa using ha)

theorem dropWhile_isSuffix (p : Char → Bool) :
    ∀ l : List Char, ∃ t, t ++ l.dropWhile p = l
  | [] => ⟨[], rfl⟩
  | a :: l => by
      by_cases ha : p a
      · obtain ⟨t, ht⟩ := dropWhile_isSuffix p l
        exact ⟨a :: t, by simp [List.dropWhile_cons, ha, ht]⟩
      · exact ⟨[], by simp [List.dropWhile_cons, ha]⟩

theorem pyStripList_head_false (l : List Char) (c : Char) (rest : List Char)
    (h : pyStripList l = c :: rest) : isPyWs c = false := by
  unfold pyStripList at h
  have hh : ((l.dropWhile isPyWs).reverse.dropWhile isPyWs).reverse.head? = some c := by
    rw [h]; rfl
  rw [List.head?_reverse] at hh
  obtain ⟨t, ht⟩ := dropWhile_isSuffix isPyWs (l.dropWhile isPyWs).reverse
  have hvne : (l.dropWhile isPyWs).reverse.dropWhile isPyWs ≠ [] := by
    intro hcon
    rw [hcon] at hh
    simp at hh
  have hlast : (l.dropWhile isPyWs).reverse.getLast? = some c := by
    rw [← ht, List.getLast?_append_of_ne_nil _ hvne, hh]
  rw [List.getLast?_reverse] at hlast
  cases hu : l.dropWhile isPyWs with
  | nil => rw [hu] at hlast; simp at hlast
  | cons u0 urest =>
      rw [hu] at hlast
      simp at hlast
      rw [← hlast]
      exact dropWhile_head_false isPyWs l u0 urest hu

theorem pyStripList_dropWhile (l : List Char) :
    (pyStripList l).dropWhile isPyWs = pyStripList l := by
  cases hh : pyStripList l with
  | nil => rfl
  | cons c rest =>
      rw [List.dropWhile_cons, if_neg (by simp [pyStripList_head_false l c rest hh])]

theorem pyStripList_idem (l : List Char) :
    pyStripList (pyStripList l) = pyStripList l := by
  conv_lhs => rw [pyStripList]
  rw [pyStripList_dropWhile]
  conv_lhs => rw [pyStripList]
  rw [List.reverse_reverse, dropWhile_idem]
  rfl

theorem pyStrip_idem (s : String) : pyStrip (pyStrip s) = pyStrip s := by
  unfold pyStrip
  rw [show (⟨pyStripList s.toList⟩ : String).toList = pyStripList s.toList from rfl,
    pyStripList_idem]

theorem pyStripList_all_false (l : List Char) (h : ∀ c ∈ l, isPyWs c = false) :
    pyStripList l = l := by
  unfold pyStripList
  rw [dropWhile_all_false isPyWs l h,
    dropWhile_all_false isPyWs l.reverse (fun c hc => h c (List.mem_reverse.mp hc)),
    List.reverse_reverse]

theorem pyStrip_of_no_ws (s : String) (h : ∀ c ∈ s.toList, isPyWs c = false) :
    pyStrip s = s := by
  obtain ⟨data⟩ := s
  unfold pyStrip
  rw [show (String.mk data).toList = data from rfl, pyStripList_all_false data h]

/-! ## Supporting lemmas for the npx matcher -/

theorem ws_cases (c : Char) (h : isPyWs c = true) :
    c = ' ' ∨ c = '\t' ∨ c = '\n' ∨ c = '\r' ∨ c = '\x0b' ∨ c = '\x0c' := by
  simp only [isPyWs, Bool.or_eq_true, decide_eq_true_eq] at h
  tauto

theorem pkgChar_not_ws (c : Char) (h : isPkgChar c = true) : isPyWs c = false := by
  cases hw : isPyWs c
  · rfl
  · rcases ws_cases c hw with rfl | rfl | rfl | rfl | rfl | rfl <;>
      exact absurd h (by decide)

/-- The shape of a package identifier matched by group 1: a non-empty run
of package characters, optionally split by a single slash into two
non-empty runs. -/
def PkgShape (pkg : List Char) : Prop :=
  (pkg ≠ [] ∧ ∀ c ∈ pkg, isPkgChar c = true) ∨
  (∃ a b, pkg = a ++ '/' :: b ∧ a ≠ [] ∧ b ≠ [] ∧
    (∀ c ∈ a, isPkgChar c = true) ∧ (∀ c ∈ b, isPkgChar c = true))

theorem PkgShape.head_pkgChar (pkg : List Char) (h : PkgShape pkg) :
    ∃ c rest, pkg = c :: rest ∧ isPkgChar c = true := by
  rcases h with ⟨hne, hall⟩ | ⟨a, b, heq, hane, _, halla, _⟩
  · cases pkg with
    | nil => exact absurd rfl hne
    | cons c rest => exact ⟨c, rest, rfl, hall c (by simp)⟩
  · cases a with
    | nil => exact absurd rfl hane
    | cons c arest =>
        exact ⟨c, arest ++ '/' :: b, by simp [heq], halla c (by simp)⟩

theorem PkgShape.no_ws (pkg : List Char) (h : PkgShape pkg) :
    ∀ c ∈ pkg, isPyWs c = false := by
  intro c hc
  rcases h with ⟨_, hall⟩ | ⟨a, b, heq, _, _, halla, hallb⟩
  · exact pkgChar_not_ws c (hall c hc)
  · subst heq
    rcases List.mem_append.mp hc with hin | hin
    · exact pkgChar_not_ws c (halla c hin)
    · rcases List.mem_cons.mp hin with rfl | hin
      · decide
      · exact pkgChar_not_ws c (hallb c hin)

/-- Group 1 consumes exactly a shaped package identifier when the character
after it is neither a package character nor a slash. -/
theorem pkgGroupAt_exact (pkg : List Char) (b : Char) (rest : List Char)
    (hshape : PkgShape pkg) (hb : isPkgChar b = false) (hbs : b ≠ '/') :
    pkgGroupAt (pkg ++ b :: rest) = some (pkg, b :: rest) := by
  rcases hshape with ⟨hne, hall⟩ | ⟨A, B, heq, hAne, hBne, hallA, hallB⟩
  · have htake : (pkg ++ b :: rest).takeWhile isPkgChar = pkg :=
      takeWhile_append_all isPkgChar pkg b rest hall hb
    unfold pkgGroupAt
    rw [htake, List.drop_left]
    rw [if_neg (by simpa using hne)]
    split
    · rename_i r4 heq4
      exact absurd (List.cons.inj heq4).1 hbs
    · rfl
  · subst heq
    have hassoc : (A ++ '/' :: B) ++ b :: rest = A ++ '/' :: (B ++ b :: rest) := by
      simp
    have htakeA : ((A ++ '/' :: B) ++ b :: rest).takeWhile isPkgChar = A := by
      rw [hassoc]
      exact takeWhile_append_all isPkgChar A '/' (B ++ b :: rest) hallA (by decide)
    have hdropA : ((A ++ '/' :: B) ++ b :: rest).drop A.length = '/' :: (B ++ b :: rest) := by
      rw [hassoc]
      exact List.drop_left A _
    have htakeB : (B ++ b :: rest).takeWhile isPkgChar = B :=
      takeWhile_append_all isPkgChar B b rest hallB hb
    have hdropB : (B ++ b :: rest).drop B.length = b :: rest :=
      List.drop_left B _
    unfold pkgGroupAt
    rw [htakeA]
    rw [if_neg (by simpa using hAne)]
    rw [hdropA]
    simp only [htakeB, hdropB]
    rw [if_neg (by simpa using hBne)]

/-- The tail matcher when the fragment does not itself start with an `mcp`
token: group 2 consumes the whole fragment. -/
theorem npxTailAt_no_mcp (pkg frag : List Char) (hfne : frag ≠ [])
    (hfchars : ∀ c ∈ frag, isFragChar c = true)
    (hfmcp : mcpOptionalAt frag = none) :
    npxTailAt pkg frag = some ⟨pkg, frag, []⟩ := by
  unfold npxTailAt
  rw [hfmcp]
  unfold fragGroupAt
  rw [takeWhile_all isFragChar frag hfchars,
    if_neg (by simpa using hfne), List.drop_length]

/-- The tail matcher when the text carries an explicit `mcp` token followed
by a single space: the token is consumed and group 2 takes the fragment. -/
theorem npxTailAt_with_mcp (pkg frag : List Char) (hfne : frag ≠ [])
    (hfchars : ∀ c ∈ frag, isFragChar c = true)
    (hfnws : frag.takeWhile isPyWs = []) :
    npxTailAt pkg ('m' :: 'c' :: 'p' :: ' ' :: frag) = some ⟨pkg, frag, []⟩ := by
  unfold npxTailAt mcpOptionalAt
  have hws : ((' ' :: frag).takeWhile isPyWs) = [' '] := by
    rw [List.takeWhile_cons, if_pos (by decide), hfnws]
  simp only [hws]
  rw [if_neg (by simp)]
  have hdrop : (' ' :: frag).drop [' '].length = frag := rfl
  rw [hdrop]
  have hfrag : fragGroupAt pkg frag = some ⟨pkg, frag, []⟩ := by
    unfold fragGroupAt
    rw [takeWhile_all isFragChar frag hfchars,
      if_neg (by simpa using hfne), List.drop_length]
  show (match fragGroupAt pkg frag with
    | some m => some m
    | none => fragGroupAt pkg ('m' :: 'c' :: 'p' :: ' ' :: frag)) =
      some ⟨pkg, frag, []⟩
  rw [hfrag]

/-- The whole matcher on a text of the form `npx -y <pkg> <tail>` reduces
to the tail matcher. -/
theorem npxMatchAt_structured (pkg rest2 : List Char) (hpkg : PkgShape pkg)
    (hr2nws : rest2.takeWhile isPyWs = []) :
    npxMatchAt ('n' :: 'p' :: 'x' :: ' ' :: '-' :: 'y' :: ' ' ::
      (pkg ++ ' ' :: rest2)) = npxTailAt pkg rest2 := by
  obtain ⟨p0, prest, hpeq, hp0⟩ := PkgShape.head_pkgChar pkg hpkg
  have hpkgtw : (pkg ++ ' ' :: rest2).takeWhile isPyWs = [] := by
    rw [hpeq, List.cons_append]
    exact takeWhile_nil_of_head_false isPyWs p0 _ (pkgChar_not_ws p0 hp0)
  unfold npxMatchAt
  have hws1 : ((' ' :: '-' :: 'y' :: ' ' :: (pkg ++ ' ' :: rest2)).takeWhile isPyWs)
      = [' '] := by
    rw [List.takeWhile_cons, if_pos (by decide),
      takeWhile_nil_of_head_false isPyWs '-' _ (by decide)]
  simp only [hws1]
  rw [if_neg (by simp)]
  have hdrop1 : ('-' :: 'y' :: ' ' :: (pkg ++ ' ' :: rest2)) =
      (' ' :: '-' :: 'y' :: ' ' :: (pkg ++ ' ' :: rest2)).drop [' '].length := rfl
  rw [← hdrop1]
  have hws2 : ((' ' :: (pkg ++ ' ' :: rest2)).takeWhile isPyWs) = [' '] := by
    rw [List.takeWhile_cons, if_pos (by decide), hpkgtw]
  simp only [hws2]
  rw [if_neg (by simp)]
  have hdrop2 : (pkg ++ ' ' :: rest2) =
      (' ' :: (pkg ++ ' ' :: rest2)).drop [' '].length := rfl
  rw [← hdrop2]
  rw [pkgGroupAt_exact pkg ' ' rest2 hpkg (by decide) (by decide)]
  have hws3 : ((' ' :: rest2).takeWhile isPyWs) = [' '] := by
    rw [List.takeWhile_cons, if_pos (by decide), hr2nws]
  simp only [hws3]
  rw [if_neg (by simp)]
  rfl

/-- A single match that consumes the whole text is the only record of the
finditer scan. -/
theorem npxFindAllAux_single (c : Char) (rest : List Char) (m : NpxMatch)
    (hm : npxMatchAt (c :: rest) = some m) (hrest : m.rest = []) :
    npxFindAllAux ((c :: rest).length + 1) (c :: rest) = [(m.pkg, m.arg)] := by
  rw [List.length_cons]
  unfold npxFindAllAux
  rw [hm]
  show (m.pkg, m.arg) :: npxFindAllAux (rest.length + 1) m.rest = [(m.pkg, m.arg)]
  rw [hrest]
  rfl

/-- The record built for one npx match, evaluated: the key is the package
name and the value is the five-token list with the `mcp` token inserted and
the trailing-punctuation-stripped fragment. -/
theorem npxRecord_eval (pkg frag : List Char)
    (hpkgnws : ∀ c ∈ pkg, isPyWs c = false) :
    npxRecord pkg frag =
      (⟨pkg⟩, Json.arr [Json.str "npx", Json.str "-y", Json.str ⟨pkg⟩,
        Json.str "mcp",
        Json.str (pyStrip (stripTrailingPunct (pyStrip ⟨frag⟩)))]) := by
  have hpp : pyStrip (⟨pkg⟩ : String) = ⟨pkg⟩ := pyStrip_of_no_ws _ hpkgnws
  unfold npxRecord
  simp only [trim_data_recursively, trimList]
  rw [hpp, hpp, pyStrip_idem,
    (by decide : pyStrip "npx" = "npx"),
    (by decide : pyStrip "-y" = "-y"),
    (by decide : pyStrip "mcp" = "mcp")]

/-! ## Claim C2

The cascade is claimed to return early only on a non-empty result.
Attempts 1, 2b and 3 are indeed guarded (`if discovered_data:` before the
return, or a record-producing loop), but the heuristics of attempts 1.5 and
2a return unconditionally once they fire (lines 150-159, 183-196): a script
tag or fenced block carrying `{"mcpServers": {}}` — or `{}`, which passes
the vacuous `all(...)` check — ends the cascade with an empty result while
a later strategy could still have produced records. -/

/-- A guarded return: `discovered_data.update(...)` followed by
`if discovered_data: return` yields a value only when it is non-empty. -/
theorem guard_nonempty_some {d r : PDict}
    (h : (if d.isEmpty then none else some d) = some r) : r ≠ [] := by
  by_cases hd : d.isEmpty
  · rw [if_pos hd] at h
    exact absurd h (by simp)
  · rw [if_neg hd] at h
    have hdr : d = r := Option.some.inj h
    subst hdr
    intro hcontra
    subst hcontra
    exact hd rfl

theorem attempt1_some_ne_nil (p : RawPage) (d : PDict)
    (h : attempt1 p = some d) : d ≠ [] := by
  unfold attempt1 at h
  repeat' split at h
  all_goals first
    | exact Option.noConfusion h
    | (have hdr := Option.some.inj h
       subst hdr
       simp_all)

theorem attempt2bAux_some_ne_nil (json5 : String → Option Json)
    (text : List Char) :
    ∀ (fuel searchIdx : Nat) (d : PDict),
      attempt2bAux json5 text fuel searchIdx = some d → d ≠ []
  | 0, _, _, h => Option.noConfusion h
  | fuel + 1, si, d, h => by
      unfold attempt2bAux at h
      repeat' split at h
      all_goals first
        | exact Option.noConfusion h
        | exact attempt2bAux_some_ne_nil json5 text fuel _ d h
        | (have hdr := Option.some.inj h
           subst hdr
           simp_all)

theorem attempt2b_some_ne_nil (json5 : String → Option Json) (p : RawPage)
    (d : PDict) (h : attempt2b json5 p = some d) : d ≠ [] :=
  attempt2bAux_some_ne_nil json5 _ _ _ d h

theorem dictAssign_ne_nil (d : PDict) (k : String) (v : Json) :
    dictAssign d k v ≠ [] := by
  cases d with
  | nil => simp [dictAssign]
  | cons kv rest =>
      by_cases hk : kv.1 = k <;> simp [dictAssign, hk]

theorem npxFold_ne_nil :
    ∀ (ms : List (List Char × List Char)) (acc : PDict), acc ≠ [] →
      ms.foldl (fun acc m =>
        dictAssign acc (npxRecord m.1 m.2).1 (npxRecord m.1 m.2).2) acc ≠ []
  | [], _, h => h
  | _ :: rest, _, _ => npxFold_ne_nil rest _ (dictAssign_ne_nil _ _ _)

theorem attempt3_some_ne_nil (p : RawPage) (d : PDict)
    (h : attempt3 p = some d) : d ≠ [] := by
  revert h
  unfold attempt3
  cases hm : npxFindAllAux ((plainTextOf p).toList.length + 1) (plainTextOf p).toList with
  | nil => intro h; exact Option.noConfusion h
  | cons m rest =>
      intro h
      have hd := (Option.some.inj h).symm
      rw [hd, List.foldl_cons]
      exact npxFold_ne_nil rest _ (dictAssign_ne_nil _ _ _)

/-- Claim C2 (amended): the cascade consults the five strategies in order
and the first that fires determines the result; attempts 1, 2b and 3 fire
only with a non-empty result, and when no strategy fires the cascade
returns the empty mapping after all five attempts.  (Attempts 1.5 and 2a,
by contrast, can fire with an empty mapping and end the cascade early —
see the counterexample.) -/
theorem C2_cascade_first_fire (json5 : String → Option Json) (p : RawPage) :
    ((∀ d, attempt1 p = some d → d ≠ []) ∧
     (∀ d, attempt2b json5 p = some d → d ≠ []) ∧
     (∀ d, attempt3 p = some d → d ≠ [])) ∧
    (attempt1 p = none → attempt15 p = none → attempt2a p = none →
      attempt2b json5 p = none → attempt3 p = none →
      parse_page_content_for_data json5 p = []) ∧
    (∀ d, attempt1 p = some d → parse_page_content_for_data json5 p = d) ∧
    (∀ d, attempt1 p = none → attempt15 p = some d →
      parse_page_content_for_data json5 p = d) ∧
    (∀ d, attempt1 p = none → attempt15 p = none → attempt2a p = some d →
      parse_page_content_for_data json5 p = d) ∧
    (∀ d, attempt1 p = none → attempt15 p = none → attempt2a p = none →
      attempt2b json5 p = some d → parse_page_content_for_data json5 p = d) ∧
    (∀ d, attempt1 p = none → attempt15 p = none → attempt2a p = none →
      attempt2b json5 p = none → attempt3 p = some d →
      parse_page_content_for_data json5 p = d) := by
  refine ⟨⟨fun d => attempt1_some_ne_nil p d,
           fun d => attempt2b_some_ne_nil json5 p d,
           fun d => attempt3_some_ne_nil p d⟩, ?_, ?_, ?_, ?_, ?_, ?_⟩
  · intro h1 h15 h2a h2b h3
    unfold parse_page_content_for_data
    rw [h1, h15, h2a, h2b, h3]
  · intro d h1
    unfold parse_page_content_for_data
    rw [h1]
  · intro d h1 h15
    unfold parse_page_content_for_data
    rw [h1, h15]
  · intro d h1 h15 h2a
    unfold parse_page_content_for_data
    rw [h1, h15, h2a]
  · intro d h1 h15 h2a h2b
    unfold parse_page_content_for_data
    rw [h1, h15, h2a, h2b]
  · intro d h1 h15 h2a h2b h3
    unfold parse_page_content_for_data
    rw [h1, h15, h2a, h2b, h3]

/-- The page of the C2 counterexample: an HTML body whose single
`application/json` script tag carries `{"mcpServers": {}}`, followed by an
npx invocation phrase.  The `scriptsOpt` and `htmlTextOpt` fields are what
BeautifulSoup produces on this body (script contents are included by
`get_text`). -/
def emptyScriptPage : RawPage :=
  { text := "<script type=\"application/json\">\x7b\"mcpServers\": \x7b\x7d\x7d</script> npx -y @acme/tool run",
    ctJson := false,
    scriptsOpt := some ["\x7b\"mcpServers\": \x7b\x7d\x7d"],
    htmlTextOpt := some "\x7b\"mcpServers\": \x7b\x7d\x7d npx -y @acme/tool run" }

/-- Counterexample to claim C2: attempt 1.5 fires on the empty
`mcpServers` mapping and returns it — empty — so the cascade ends with an
empty result even though the npx strategy (attempt 3) would have produced
a record; a strategy yielding an empty mapping does stop the cascade. -/
theorem C2_cex_empty_script_halts_cascade :
    attempt15 emptyScriptPage = some [] ∧
    attempt3 emptyScriptPage =
      some [("@acme/tool", Json.arr [Json.str "npx", Json.str "-y",
        Json.str "@acme/tool", Json.str "mcp", Json.str "run"])] ∧
    parse_page_content_for_data noJson5 emptyScriptPage = [] :=
  ⟨by decide, by decide, by decide⟩

/-- A page on which no strategy fires. -/
def blankPage : RawPage :=
  { text := "", ctJson := false, scriptsOpt := some [], htmlTextOpt := some "" }

/-- Witness for C2's amended theorem: the all-strategies-fail conjunct at a
concrete page, every hypothesis discharged by evaluation. -/
theorem C2_cascade_first_fire_witness :
    attempt1 blankPage = none ∧ attempt15 blankPage = none ∧
    attempt2a blankPage = none ∧ attempt2b noJson5 blankPage = none ∧
    attempt3 blankPage = none ∧
    parse_page_content_for_data noJson5 blankPage = [] :=
  ⟨rfl, rfl, rfl, rfl, rfl,
    (C2_cascade_first_fire noJson5 blankPage).2.1 rfl rfl rfl rfl rfl⟩

/-! ## Claim C8

The processed-URL set of the run loop: a URL is marked processed exactly
when its merge appended at least one entry, and a URL in the set — loaded
at start or added during the run — is never fetched again. -/

/-- The skip branch of one iteration. -/
theorem runStep_skip (f : String → Option (List (String × Json)))
    (st : RunState) (url : String) (h : url ∈ st.processed) :
    runStep f st url = (st, [RunEvent.skip url]) := by
  unfold runStep
  rw [if_pos h]

/-- One iteration never removes a URL from the processed set. -/
theorem runStep_processed_mono (f : String → Option (List (String × Json)))
    (st : RunState) (u url : String) (h : url ∈ st.processed) :
    url ∈ (runStep f st u).1.processed := by
  unfold runStep
  by_cases hmem : u ∈ st.processed
  · rw [if_pos hmem]
    exact h
  · rw [if_neg hmem]
    cases f u with
    | none => exact h
    | some d =>
        simp only []
        by_cases hc : 0 < (mergeDiscovered d u st.collection).2
        · simp only [if_pos hc]
          exact List.mem_append_left _ h
        · simp only [if_neg hc]
          exact h

/-- A fetch event in one iteration identifies its URL and certifies that it
was not yet processed. -/
theorem runStep_fetch_event (f : String → Option (List (String × Json)))
    (st : RunState) (u url : String)
    (h : RunEvent.fetch url ∈ (runStep f st u).2) : url = u ∧ u ∉ st.processed := by
  revert h
  unfold runStep
  by_cases hmem : u ∈ st.processed
  · rw [if_pos hmem]
    intro h
    simp at h
  · rw [if_neg hmem]
    cases f u with
    | none =>
        intro h
        simp at h
        exact ⟨h, hmem⟩
    | some d =>
        intro h
        simp at h
        exact ⟨h, hmem⟩

/-- A URL in the processed set is never fetched over any remaining URL
list. -/
theorem runUrls_no_refetch (f : String → Option (List (String × Json))) :
    ∀ (us : List String) (st : RunState) (url : String),
      url ∈ st.processed → RunEvent.fetch url ∉ (runUrls f st us).2
  | [], st, url, h => by simp [runUrls]
  | u :: rest, st, url, h => by
      simp only [runUrls]
      intro hmem
      rcases List.mem_append.mp hmem with h1 | h2
      · obtain ⟨hequ, hnp⟩ := runStep_fetch_event f st u url h1
        subst hequ
        exact hnp h
      · exact runUrls_no_refetch f rest _ url (runStep_processed_mono f st u url h) h2

/-- Claim C8: (1) for an unprocessed URL whose fetch succeeds, the URL is
added to the processed set exactly when the merge appends at least one
entry; (2) a processed URL is skipped, producing no fetch; (3) a URL in the
processed set at any point of a run — at the start or after being added —
is never fetched during the remainder of the run. -/
theorem C8_processed_urls (f : String → Option (List (String × Json))) :
    (∀ (st : RunState) (url : String) (d : List (String × Json)),
        url ∉ st.processed → f url = some d →
        (((runStep f st url).1.processed = st.processed ++ [url]) ↔
          0 < (mergeDiscovered d url st.collection).2) ∧
        (¬ 0 < (mergeDiscovered d url st.collection).2 →
          (runStep f st url).1.processed = st.processed)) ∧
    (∀ (st : RunState) (url : String),
        url ∈ st.processed → runStep f st url = (st, [RunEvent.skip url])) ∧
    (∀ (us1 us2 : List String) (st : RunState) (url : String),
        url ∈ (runUrls f st us1).1.processed →
        RunEvent.fetch url ∉ (runUrls f ((runUrls f st us1).1) us2).2) := by
  refine ⟨?_, runStep_skip f, ?_⟩
  · intro st url d hnp hf
    unfold runStep
    rw [if_neg hnp, hf]
    simp only []
    by_cases hc : 0 < (mergeDiscovered d url st.collection).2
    · constructor
      · exact ⟨fun _ => hc, fun _ => by rw [if_pos hc]⟩
      · intro hcontra
        exact absurd hc hcontra
    · constructor
      · rw [if_neg hc]
        constructor
        · intro habs
          have hlen := congrArg List.length habs
          rw [List.length_append, List.length_singleton] at hlen
          omega
        · intro habs
          exact absurd habs hc
      · intro _
        rw [if_neg hc]
  · intro us1 us2 st url hmem
    exact runUrls_no_refetch f us2 (runUrls f st us1).1 url hmem

/-- Witness for C8: the first conjunct applied at a concrete oracle and
state where the merge appends one entry, so the URL is marked processed. -/
theorem C8_processed_urls_witness :
    ("u" ∉ (RunState.mk [] []).processed) ∧
    0 < (mergeDiscovered [("a", Json.obj [])] "u" (RunState.mk [] []).collection).2 ∧
    (runStep (fun _ => some [("a", Json.obj [])]) (RunState.mk [] []) "u").1.processed =
      (RunState.mk [] []).processed ++ ["u"] :=
  ⟨by decide, by decide,
    ((C8_processed_urls (fun _ => some [("a", Json.obj [])])).1
        (RunState.mk [] []) "u" [("a", Json.obj [])] (by decide) rfl).1.mpr (by decide)⟩

/-! ## Claim C10

The sub-command token `mcp` is optional in the matched text (the pattern's
`(?:mcp\s+)?` group) but the synthesized token list always contains the
literal `"mcp"` (line 274): with or without the token, the record for the
package is the five-element list with the cleaned trailing fragment. -/

/-- Claim C10: for a text of the form `npx -y <pkg> <frag>` — with or
without an `mcp` token between package and fragment — the matcher yields
the same (package, fragment) match consuming the whole text, the finditer
scan yields exactly that one match, and the synthesized record is the
five-element list `["npx", "-y", pkg, "mcp", frag-with-trailing-punctuation
-stripped]` keyed by the package. -/
theorem C10_npx_mcp_token (pkg frag : List Char)
    (hpkg : PkgShape pkg) (hfne : frag ≠ [])
    (hfchars : ∀ c ∈ frag, isFragChar c = true)
    (hfnws : frag.takeWhile isPyWs = [])
    (hfmcp : mcpOptionalAt frag = none) :
    npxMatchAt ('n' :: 'p' :: 'x' :: ' ' :: '-' :: 'y' :: ' ' ::
        (pkg ++ ' ' :: frag)) = some ⟨pkg, frag, []⟩ ∧
    npxMatchAt ('n' :: 'p' :: 'x' :: ' ' :: '-' :: 'y' :: ' ' ::
        (pkg ++ ' ' :: ('m' :: 'c' :: 'p' :: ' ' :: frag))) =
      some ⟨pkg, frag, []⟩ ∧
    npxFindAllAux
        (('n' :: 'p' :: 'x' :: ' ' :: '-' :: 'y' :: ' ' ::
          (pkg ++ ' ' :: frag)).length + 1)
        ('n' :: 'p' :: 'x' :: ' ' :: '-' :: 'y' :: ' ' :: (pkg ++ ' ' :: frag)) =
      [(pkg, frag)] ∧
    npxRecord pkg frag =
      (⟨pkg⟩, Json.arr [Json.str "npx", Json.str "-y", Json.str ⟨pkg⟩,
        Json.str "mcp",
        Json.str (pyStrip (stripTrailingPunct (pyStrip ⟨frag⟩)))]) := by
  have h1 : npxMatchAt ('n' :: 'p' :: 'x' :: ' ' :: '-' :: 'y' :: ' ' ::
      (pkg ++ ' ' :: frag)) = some ⟨pkg, frag, []⟩ := by
    rw [npxMatchAt_structured pkg frag hpkg hfnws]
    exact npxTailAt_no_mcp pkg frag hfne hfchars hfmcp
  refine ⟨h1, ?_, ?_, npxRecord_eval pkg frag (PkgShape.no_ws pkg hpkg)⟩
  · rw [npxMatchAt_structured pkg ('m' :: 'c' :: 'p' :: ' ' :: frag) hpkg
      (takeWhile_nil_of_head_false isPyWs 'm' _ (by decide))]
    exact npxTailAt_with_mcp pkg frag hfne hfchars hfnws
  · exact npxFindAllAux_single 'n' _ ⟨pkg, frag, []⟩ h1 rfl

/-- Witness for C10 at the spec's scenario-C package and fragment, the
explicit-`mcp` conjunct instantiated. -/
theorem C10_npx_mcp_token_witness :
    PkgShape "@acme/tool".toList ∧
    ("do-the-thing.".toList ≠ []) ∧
    npxMatchAt ('n' :: 'p' :: 'x' :: ' ' :: '-' :: 'y' :: ' ' ::
        ("@acme/tool".toList ++ ' ' ::
          ('m' :: 'c' :: 'p' :: ' ' :: "do-the-thing.".toList))) =
      some ⟨"@acme/tool".toList, "do-the-thing.".toList, []⟩ :=
  ⟨Or.inr ⟨"@acme".toList, "tool".toList, by decide, by decide, by decide,
      by decide, by decide⟩,
   by decide,
   (C10_npx_mcp_token "@acme/tool".toList "do-the-thing.".toList
      (Or.inr ⟨"@acme".toList, "tool".toList, by decide, by decide, by decide,
        by decide, by decide⟩)
      (by decide) (by decide) (by decide) (by decide)).2.1⟩

/-- Witness for C6's second conjunct at a concrete collection holding the
name under one URL but not the other. -/
theorem C6_merge_dedup_witness :
    hasPersistedPair [[("id", Json.str "a"), ("source_url", Json.str "u")]] "a" "u" ∧
    ("w" : String) ≠ "u" ∧
    ¬ hasPersistedPair [[("id", Json.str "a"), ("source_url", Json.str "u")]] "a" "w" ∧
    mergeDiscovered [("a", Json.obj [("command", Json.str "run")])] "w"
        [[("id", Json.str "a"), ("source_url", Json.str "u")]] =
      ([[("id", Json.str "a"), ("source_url", Json.str "u")]] ++
        [mkPersistedItem "a" "w" [("command", Json.str "run")]], 1) :=
  ⟨by decide, by decide, by decide,
    (C6_merge_dedup [("a", Json.obj [("command", Json.str "run")])] "u" "w"
        [[("id", Json.str "a"), ("source_url", Json.str "u")]] "a"
        [("command", Json.str "run")]).2
      (by decide) (by decide) (by decide)⟩

end McpParser
